import Mathlib

/-!
# treeviz: indentation-structured text to a box-drawing tree diagram

A shallow embedding of `treeviz.c` and theorems about it.

Modelling conventions.

* A C string (`char *`, NUL terminated) is the `List Char` of the characters
  before its terminator; reading the terminator is reading past the end of
  the list.
* A `struct tree **` array together with its `size_t` count is a `List tree`;
  a `struct line_pair *` together with its `int` count is a `List line_pair`.
* `stdout` is the list of the texts written by the successive `printf` calls,
  each without the newline that ends it. The labels that `tree_from_text`
  produces hold no newline (`parse_lines_no_newline`), so for its trees these
  texts are exactly the lines of the output.
* Allocation never fails (`CHECK_ALLOC` never fires) and the `int` counters
  stay below `2^31`.
-/

namespace Treeviz

/-! ## Data model -/

/-- The C `struct line_pair`: an indent count and the trimmed text of a line. -/
structure line_pair where
  indent : Int
  str : List Char
deriving DecidableEq, Repr

/-- The C `struct tree`: a label and the ordered array of children. -/
inductive tree where
  | node (value : List Char) (children : List tree)
deriving Repr

/-- Field `value` of a `struct tree`. -/
def tree.value : tree → List Char
  | .node v _ => v

/-- Field `children` (with `children_count`) of a `struct tree`. -/
def tree.children : tree → List tree
  | .node _ cs => cs

/-! ## Renderer (`draw`, `draw_tree`) -/

/-- The connector of a diagram line: `is_last ? "└" : "├"`. -/
def connector (is_last : Bool) : List Char :=
  if is_last then ['└'] else ['├']

/-- The text appended to the indentation for the children of a node:
`!is_last ? "│  " : "   "`. -/
def branch_str (is_last : Bool) : List Char :=
  if !is_last then ['│', ' ', ' '] else [' ', ' ', ' ']

mutual
/-- One iteration of the `for` loop of `draw`: the `printf` of the node's line,
then the recursive call on its children with the extended indentation. -/
def draw_node (indentation : List Char) (is_last : Bool) : tree → List (List Char)
  | .node value children =>
    (indentation ++ connector is_last ++ ['─', ' '] ++ value)
      :: draw_from (indentation ++ branch_str is_last) children.length 0 children
/-- The `for (size_t i = 0; i < count; ++i)` loop of `draw`, entered at index
`i` with the elements `forest[i..count)` still to visit;
`is_last = (i == count - 1)`. -/
def draw_from (indentation : List Char) (count : Nat) (i : Nat) :
    List tree → List (List Char)
  | [] => []
  | node :: rest =>
    draw_node indentation (i == count - 1) node ++ draw_from indentation count (i + 1) rest
end

/-- The C function `draw(indentation, forest, count)`; `count` is the length of
the array at both call sites. -/
def draw (indentation : List Char) (forest : List tree) : List (List Char) :=
  draw_from indentation forest.length 0 forest

/-- The C function `draw_tree`: the root's label, then `draw("", children)`. -/
def draw_tree (root : tree) : List (List Char) :=
  root.value :: draw [] root.children

/-! ## Tree builder (`forest_from_line_indents`) -/

/-- The inner `while (i < len && lines[i].indent > current_indent) i++` of
`forest_from_line_indents`, run on the lines after the current one; the result
is `i - (pos + 1)`, the number of lines the lookahead cursor passed. -/
def lookahead (current_indent : Int) : List line_pair → Nat
  | [] => 0
  | l :: ls => if l.indent > current_indent then lookahead current_indent ls + 1 else 0

/-- The outer `while (pos < len)` loop of `forest_from_line_indents` on the
lines `lines[pos..len)`, with a bound on the number of nested calls. The node
of the current line gets the forest of the span the lookahead passed
(`lines + pos + 1`, `i - (pos + 1)`) and the loop goes on from `pos = i`. -/
def forest_loop : Nat → List line_pair → List tree
  | 0, _ => []
  | _ + 1, [] => []
  | fuel + 1, current :: rest =>
    let n := lookahead current.indent rest
    tree.node current.str (forest_loop fuel (rest.take n)) :: forest_loop fuel (rest.drop n)

/-- The C function `forest_from_line_indents(lines, len)`. Every nested call
and every iteration works on strictly fewer lines, so `len` bounds the
nesting. -/
def forest_from_line_indents (lines : List line_pair) : List tree :=
  forest_loop lines.length lines

/-! ## Indent parser and `tree_from_text` -/

/-- One call of `strtok_r` with the delimiter set `"\n"`: skip the delimiters
at the cursor; at the end of the string there is no token; otherwise the token
runs up to the next delimiter, which is overwritten, and the cursor is left
after it. Returns the token and the saved cursor. -/
def strtok_r (s : List Char) : Option (List Char × List Char) :=
  match s.dropWhile (· == '\n') with
  | [] => none
  | c :: cs =>
    some ((c :: cs).takeWhile (· != '\n'), ((c :: cs).dropWhile (· != '\n')).drop 1)

/-- The loop `for (int i = 0; line[i] == ' ' || line[i] == '\t'; i++)` of
`tree_from_text`, entered at index `i` with `line[i..]` left to read. -/
def indent_loop : List Char → Nat → Int → Int
  | [], _, indent => indent
  | c :: cs, i, indent =>
    if c = ' ' ∨ c = '\t' then
      if c = '\t' then indent_loop cs (i + 1) (indent + 1)
      else if i % 2 = 0 then indent_loop cs (i + 1) (indent + 1)
      else indent_loop cs (i + 1) indent
    else indent

/-- The indent that `tree_from_text` computes for a line. -/
def line_indent (line : List Char) : Int :=
  indent_loop line 0 0

/-- The C library `isspace` in the "C" locale (the program sets no locale):
space, `\t`, `\n`, `\v`, `\f`, `\r`. -/
def isspace (c : Char) : Bool :=
  c == ' ' || c == '\t' || c == '\n' || c == '\x0b' || c == '\x0c' || c == '\r'

/-- The text `trimmed = line + non_space_idx`, after
`while (isspace(line[non_space_idx])) non_space_idx++`. -/
def trimmed : List Char → List Char
  | [] => []
  | c :: cs => if isspace c then trimmed cs else c :: cs

/-- The Line that one iteration of the parsing loop appends to `lines`. -/
def parse_line (line : List Char) : line_pair :=
  ⟨line_indent line, trimmed line⟩

/-- The loop `while (line)` of `tree_from_text`: `s` is what `strtok_r` has
left to read, the result is the lines appended from here on. Every token takes
at least one character, so the length of the text bounds the iterations. -/
def parse_loop : Nat → List Char → List line_pair
  | 0, _ => []
  | fuel + 1, s =>
    match strtok_r s with
    | none => []
    | some (line, saveptr) => parse_line line :: parse_loop fuel saveptr

/-- The Line sequence that `tree_from_text` hands to `forest_from_line_indents`. -/
def parse_lines (text : List Char) : List line_pair :=
  parse_loop text.length text

/-- The C function `tree_from_text`. -/
def tree_from_text (text : List Char) : tree :=
  tree.node ['.'] (forest_from_line_indents (parse_lines text))

/-! ## Addressing the nodes of a forest -/

mutual
/-- The nodes of a tree in pre-order: the node, then the nodes of its children. -/
def tree.nodes : tree → List tree
  | .node value children => .node value children :: forest_nodes children
/-- The nodes of a forest in pre-order, the trees in stored order. -/
def forest_nodes : List tree → List tree
  | [] => []
  | t :: ts => t.nodes ++ forest_nodes ts
end

/-- The labels of a forest in pre-order. -/
def preorder_labels (forest : List tree) : List (List Char) :=
  (forest_nodes forest).map tree.value

mutual
/-- The paths of the nodes of a tree in pre-order, relative to the tree: the
empty path for its root, then the paths into its children. -/
def tree.paths : tree → List (List Nat)
  | .node _ children => [] :: forest_paths 0 children
/-- The paths of the nodes of `forest[i..]` in pre-order, where the first tree
of the list has index `i` in its sequence: a path is the index of a tree
followed by the path inside that tree. -/
def forest_paths (i : Nat) : List tree → List (List Nat)
  | [] => []
  | t :: ts => t.paths.map (fun p => i :: p) ++ forest_paths (i + 1) ts
end

/-- The paths of all nodes of a forest, in pre-order. A node of depth `d`
(top-level trees have depth 0) has a path of `d + 1` indices. -/
def preorder_paths (forest : List tree) : List (List Nat) :=
  forest_paths 0 forest

/-- The node that a path leads to: index into the forest, then into the
children of the tree found, and so on. -/
def node_at : List tree → List Nat → Option tree
  | _, [] => none
  | forest, [i] => forest[i]?
  | forest, i :: j :: p =>
    match forest[i]? with
    | some t => node_at t.children (j :: p)
    | none => none

/-- Whether the node a path leads to is the final element of the children
sequence it stands in (of the forest itself for a path of one index). -/
def is_final : List tree → List Nat → Bool
  | _, [] => false
  | forest, [i] => i + 1 == forest.length
  | forest, i :: j :: p =>
    match forest[i]? with
    | some t => is_final t.children (j :: p)
    | none => false

/-- The continuation prefix in the specification's words: for every ancestor of
the node at path `q`, outermost first (the ancestors are the nodes at the
proper non-empty prefixes of `q`), three spaces when the ancestor is the final
element of its sequence and a bar with two spaces otherwise. -/
def ancestor_bars (forest : List tree) (q : List Nat) : List Char :=
  ((List.range (q.length - 1)).map
    (fun j => if is_final forest (q.take (j + 1)) then [' ', ' ', ' '] else ['│', ' ', ' '])).flatten

/-- The label of the node at a path (empty when the path leads nowhere). -/
def label_at (forest : List tree) (q : List Nat) : List Char :=
  ((node_at forest q).map tree.value).getD []

/-- The diagram line of the node at path `q` in the specification's words:
prefix, connector, one dash, one space, label. -/
def diagram_line (forest : List tree) (q : List Nat) : List Char :=
  ancestor_bars forest q ++ (if is_final forest q then ['└'] else ['├']) ++ ['─', ' ']
    ++ label_at forest q

/-! ## Reference notions on Line sequences -/

/-- The run of lines that follow line `i` and are indented deeper than it. -/
def run_after (ls : List line_pair) (i : Nat) (k : Int) : List line_pair :=
  (ls.drop (i + 1)).take (lookahead k (ls.drop (i + 1)))

/-- The input lines of a text as the specification counts them: the
newline-terminated segments, plus a final unterminated segment when the text
does not end in a newline. -/
def input_lines : List Char → List (List Char)
  | [] => []
  | c :: cs =>
    if c = '\n' then [] :: input_lines cs
    else
      match input_lines cs with
      | [] => [[c]]
      | seg :: segs => (c :: seg) :: segs

/-- The input lines that hold at least one character. -/
def nonempty_lines (text : List Char) : List (List Char) :=
  (input_lines text).filter (fun seg => !seg.isEmpty)

/-- The leading run of spaces and tabs of a line. -/
def leading_run (line : List Char) : List Char :=
  line.takeWhile (fun c => c == ' ' || c == '\t')

/-- The number of spaces of a run that stand at an even position, the first
character of the run standing at position `i`. -/
def even_space_count (i : Nat) (run : List Char) : Nat :=
  ((run.enumFrom i).filter (fun p => p.2 == ' ' && p.1 % 2 == 0)).length

/-- The indent count in the specification's words: the tabs of the run plus
its spaces at even zero-based positions. -/
def run_units (run : List Char) : Nat :=
  run.count '\t' + even_space_count 0 run

/-- The characters the claim about labels calls whitespace: space, tab,
carriage return, vertical tab, form feed. -/
def is_blank (c : Char) : Bool :=
  c == ' ' || c == '\t' || c == '\r' || c == '\x0b' || c == '\x0c'

mutual
/-- The Lines of a tree by a pre-order walk, its root at depth `depth`: the
Line (depth, label) of the root, then the Lines of the children one level
deeper. -/
def tree.serialise (depth : Nat) : tree → List line_pair
  | .node value children => ⟨depth, value⟩ :: forest_serialise (depth + 1) children
/-- The Lines of a forest by a pre-order walk, its trees at depth `depth`. -/
def forest_serialise (depth : Nat) : List tree → List line_pair
  | [] => []
  | t :: ts => t.serialise depth ++ forest_serialise depth ts
end

/-- The single chain over a sequence of lines: the node of each line has the
node of the next line as its only child. -/
def chain_of : List line_pair → List tree
  | [] => []
  | l :: ls => [tree.node l.str (chain_of ls)]

/-- The number of times the test `lines[i].indent > current_indent` of the
lookahead loop is evaluated for one current line: once for every line passed
and once more for the line that stops the cursor (not at the end of the span,
where `i < len` fails first). -/
def lookahead_tests (current_indent : Int) : List line_pair → Nat
  | [] => 0
  | l :: ls => if l.indent > current_indent then lookahead_tests current_indent ls + 1 else 1

/-- The number of lookahead tests of `forest_from_line_indents`, summed over
the outer loop and all nested calls, following `forest_loop`. -/
def forest_tests : Nat → List line_pair → Nat
  | 0, _ => 0
  | _ + 1, [] => 0
  | fuel + 1, current :: rest =>
    let n := lookahead current.indent rest
    lookahead_tests current.indent rest + forest_tests fuel (rest.take n)
      + forest_tests fuel (rest.drop n)

/-- The total number of lookahead tests of `forest_from_line_indents(lines, len)`. -/
def comparisons (lines : List line_pair) : Nat :=
  forest_tests lines.length lines

/-- The lines with indents `0, 1, .., n-1` and empty labels. -/
def staircase (n : Nat) : List line_pair :=
  (List.range n).map (fun (i : Nat) => line_pair.mk (i : Int) [])

/-- The text `A`, tab `B`, `C` of the specification's example, one per line. -/
def example_text : List Char :=
  ['A', '\n', '\t', 'B', '\n', 'C']

/-- The lines `A`(0), `B`(1), `C`(0) of the specification's example. -/
def example_lines : List line_pair :=
  [⟨0, ['A']⟩, ⟨1, ['B']⟩, ⟨0, ['C']⟩]

/-! ## Induction principles -/

/-- Simultaneous induction over trees and forests. -/
theorem tree_forest_induction {P : tree → Prop} {Q : List tree → Prop}
    (hnode : ∀ v cs, Q cs → P (.node v cs)) (hnil : Q [])
    (hcons : ∀ t ts, P t → Q ts → Q (t :: ts)) :
    (∀ t, P t) ∧ (∀ ts, Q ts) :=
  ⟨fun t => tree.rec (motive_1 := P) (motive_2 := Q) hnode hnil hcons t,
   fun ts => tree.rec_1 (motive_1 := P) (motive_2 := Q) hnode hnil hcons ts⟩

/-! ## The builder: unfolding and induction -/

theorem lookahead_le (k : Int) (ls : List line_pair) : lookahead k ls ≤ ls.length := by
  induction ls with
  | nil => simp [lookahead]
  | cons l ls ih =>
    simp only [lookahead]
    split
    · simp; omega
    · simp

/-- The bound on the nesting does not matter once it is at least the number of
lines. -/
theorem forest_loop_fuel (f1 : Nat) :
    ∀ (f2 : Nat) (ls : List line_pair), ls.length ≤ f1 → ls.length ≤ f2 →
      forest_loop f1 ls = forest_loop f2 ls := by
  induction f1 with
  | zero =>
    intro f2 ls h1 _
    have : ls = [] := List.length_eq_zero.mp (Nat.le_zero.mp h1)
    subst this
    cases f2 <;> simp [forest_loop]
  | succ f1 ih =>
    intro f2 ls h1 h2
    cases ls with
    | nil => cases f2 <;> simp [forest_loop]
    | cons cur rest =>
      cases f2 with
      | zero => simp at h2
      | succ f2 =>
        simp only [List.length_cons, Nat.add_le_add_iff_right] at h1 h2
        simp only [forest_loop]
        have hn := lookahead_le cur.indent rest
        rw [ih f2 (rest.take _) (by simp; omega) (by simp; omega),
            ih f2 (rest.drop _) (by simp; omega) (by simp; omega)]

theorem forest_nil : forest_from_line_indents [] = [] := rfl

/-- One iteration of the outer loop of `forest_from_line_indents`. -/
theorem forest_cons (cur : line_pair) (rest : List line_pair) :
    forest_from_line_indents (cur :: rest) =
      tree.node cur.str (forest_from_line_indents (rest.take (lookahead cur.indent rest)))
        :: forest_from_line_indents (rest.drop (lookahead cur.indent rest)) := by
  have hn := lookahead_le cur.indent rest
  simp only [forest_from_line_indents, List.length_cons, forest_loop]
  rw [forest_loop_fuel rest.length _ (rest.take _) (by simp) (le_refl _),
      forest_loop_fuel rest.length _ (rest.drop _) (by simp) (le_refl _)]

/-- Induction along the recursion of `forest_from_line_indents`. -/
theorem forest_induction {P : List line_pair → Prop} (hnil : P [])
    (hcons : ∀ cur rest, P (rest.take (lookahead cur.indent rest)) →
      P (rest.drop (lookahead cur.indent rest)) → P (cur :: rest)) :
    ∀ ls, P ls := by
  have key : ∀ n (ls : List line_pair), ls.length ≤ n → P ls := by
    intro n
    induction n with
    | zero =>
      intro ls h
      have : ls = [] := List.length_eq_zero.mp (Nat.le_zero.mp h)
      exact this ▸ hnil
    | succ n ih =>
      intro ls h
      cases ls with
      | nil => exact hnil
      | cons cur rest =>
        simp only [List.length_cons, Nat.add_le_add_iff_right] at h
        exact hcons cur rest (ih _ (by simp; omega)) (ih _ (by simp; omega))
  exact fun ls => key ls.length ls (le_refl _)

theorem forest_nodes_append (xs ys : List tree) :
    forest_nodes (xs ++ ys) = forest_nodes xs ++ forest_nodes ys := by
  induction xs with
  | nil => simp [forest_nodes]
  | cons t ts ih => simp [forest_nodes, ih]

theorem forest_nodes_cons (v : List Char) (cs ts : List tree) :
    forest_nodes (tree.node v cs :: ts) =
      tree.node v cs :: (forest_nodes cs ++ forest_nodes ts) := by
  simp [forest_nodes, tree.nodes]

/-- The labels of the built forest in pre-order are the labels of the lines. -/
theorem preorder_labels_forest (ls : List line_pair) :
    preorder_labels (forest_from_line_indents ls) = ls.map line_pair.str := by
  induction ls using forest_induction with
  | hnil => rfl
  | hcons cur rest ih1 ih2 =>
    rw [forest_cons]
    simp only [preorder_labels] at ih1 ih2 ⊢
    rw [forest_nodes_cons, List.map_cons, List.map_append, ih1, ih2, ← List.map_append,
      List.take_append_drop]
    rfl

/-- C3: the pre-order traversal of the built forest lists the labels of the
lines in input order, one node per line, so the forest has as many nodes as
there are lines. -/
theorem forest_preorder_is_input_order (L : List line_pair) :
    preorder_labels (forest_from_line_indents L) = L.map line_pair.str ∧
    (forest_nodes (forest_from_line_indents L)).length = L.length := by
  have h := preorder_labels_forest L
  refine ⟨h, ?_⟩
  have := congrArg List.length h
  simpa [preorder_labels] using this

/-! ## Facts about the lookahead cursor -/

/-- Every line the lookahead cursor passes is indented deeper than the current
line. -/
theorem lookahead_passed (k : Int) (ls : List line_pair) :
    ∀ l ∈ ls.take (lookahead k ls), k < l.indent := by
  induction ls with
  | nil => simp [lookahead]
  | cons a ls ih =>
    simp only [lookahead]
    split
    · intro l hl
      simp only [List.take_succ_cons, List.mem_cons] at hl
      rcases hl with rfl | hl
      · assumption
      · exact ih l hl
    · simp

/-- The line the lookahead cursor stops at, if any, is not indented deeper than
the current line. -/
theorem lookahead_stop (k : Int) (ls : List line_pair) (l : line_pair)
    (h : ls[lookahead k ls]? = some l) : l.indent ≤ k := by
  induction ls with
  | nil => simp at h
  | cons a ls ih =>
    simp only [lookahead] at h
    split at h
    · simp only [List.getElem?_cons_succ] at h
      exact ih h
    · simp only [List.getElem?_cons_zero, Option.some.injEq] at h
      subst h
      omega

/-- The cursor does not look past a line that stops it. -/
theorem lookahead_append (x : Int) (xs bs : List line_pair)
    (hb : ∀ b, bs[0]? = some b → b.indent ≤ x) :
    lookahead x (xs ++ bs) = lookahead x xs := by
  induction xs with
  | nil =>
    cases bs with
    | nil => rfl
    | cons b bs =>
      have := hb b (by simp)
      simp only [List.nil_append, lookahead]
      rw [if_neg (by omega)]
  | cons a xs ih =>
    show lookahead x (a :: (xs ++ bs)) = lookahead x (a :: xs)
    simp only [lookahead, ih]

theorem lookahead_all (k : Int) (ls : List line_pair) (h : ∀ l ∈ ls, k < l.indent) :
    lookahead k ls = ls.length := by
  induction ls with
  | nil => rfl
  | cons a ls ih =>
    simp only [lookahead]
    rw [if_pos (by simpa using h a (by simp)), ih (fun l hl => h l (by simp [hl]))]
    rfl

theorem forest_nodes_length (ls : List line_pair) :
    (forest_nodes (forest_from_line_indents ls)).length = ls.length := by
  have := congrArg List.length (preorder_labels_forest ls)
  simpa [preorder_labels] using this

/-- The subtree at every pre-order position of the built forest: the node of
line `i` over the forest built from the run measured in the whole sequence. -/
theorem forest_nodes_getElem (ls : List line_pair) :
    ∀ (i : Nat) (li : line_pair), ls[i]? = some li →
      (forest_nodes (forest_from_line_indents ls))[i]? =
        some (tree.node li.str (forest_from_line_indents (run_after ls i li.indent))) := by
  induction ls using forest_induction with
  | hnil => intro i li h; simp at h
  | hcons cur rest ihA ihB =>
    intro i li h
    rw [forest_cons, forest_nodes_cons]
    cases i with
    | zero =>
      simp only [List.getElem?_cons_zero, Option.some.injEq] at h
      subst h
      simp [run_after]
    | succ i =>
      simp only [List.getElem?_cons_succ] at h ⊢
      have hn := lookahead_le cur.indent rest
      have hlenA : (forest_nodes (forest_from_line_indents
          (rest.take (lookahead cur.indent rest)))).length = lookahead cur.indent rest := by
        rw [forest_nodes_length]; simp; omega
      by_cases hi : i < lookahead cur.indent rest
      · rw [List.getElem?_append_left (by omega)]
        have hA : (rest.take (lookahead cur.indent rest))[i]? = some li := by
          rw [List.getElem?_take_of_lt hi]; exact h
        rw [ihA i li hA]
        have hli : cur.indent < li.indent :=
          lookahead_passed cur.indent rest li (List.getElem?_mem hA)
        congr 3
        simp only [run_after, List.drop_succ_cons]
        have hsplit : rest.drop (i + 1) =
            (rest.take (lookahead cur.indent rest)).drop (i + 1)
              ++ rest.drop (lookahead cur.indent rest) := by
          conv_lhs => rw [← List.take_append_drop (lookahead cur.indent rest) rest]
          rw [List.drop_append_of_le_length (by simp; omega)]
        have hstop : ∀ b, (rest.drop (lookahead cur.indent rest))[0]? = some b →
            b.indent ≤ li.indent := by
          intro b hb
          rw [List.getElem?_drop] at hb
          have := lookahead_stop cur.indent rest b (by simpa using hb)
          omega
        rw [hsplit, lookahead_append _ _ _ hstop,
          List.take_append_of_le_length (lookahead_le _ _)]
      · rw [List.getElem?_append_right (by omega), hlenA]
        have hB : (rest.drop (lookahead cur.indent rest))[i - lookahead cur.indent rest]? =
            some li := by
          rw [List.getElem?_drop, ← h]; congr 1; omega
        rw [ihB _ li hB]
        congr 3
        simp only [run_after, List.drop_succ_cons, List.drop_drop]
        have : lookahead cur.indent rest + (i - lookahead cur.indent rest + 1) = i + 1 := by
          omega
        rw [this]

theorem tree_nodes_eq (t : tree) : t.nodes = t :: forest_nodes t.children := by
  cases t; simp [tree.nodes, tree.children]

/-- In the pre-order list the nodes of a subtree stand together, starting at
the position of its root. -/
theorem nodes_drop :
    (∀ (t : tree) (i : Nat) (s : tree), t.nodes[i]? = some s →
      ∃ after, t.nodes.drop i = s.nodes ++ after) ∧
    (∀ (ts : List tree) (i : Nat) (s : tree), (forest_nodes ts)[i]? = some s →
      ∃ after, (forest_nodes ts).drop i = s.nodes ++ after) := by
  apply tree_forest_induction
  · intro v cs ih i s h
    cases i with
    | zero =>
      simp only [tree.nodes, List.getElem?_cons_zero, Option.some.injEq] at h
      subst h
      exact ⟨[], by simp⟩
    | succ i =>
      simp only [tree.nodes, List.getElem?_cons_succ] at h
      obtain ⟨after, ha⟩ := ih i s h
      exact ⟨after, by simpa [tree.nodes] using ha⟩
  · intro i s h
    simp [forest_nodes] at h
  · intro t ts iht ihts i s h
    simp only [forest_nodes] at h ⊢
    by_cases hi : i < t.nodes.length
    · rw [List.getElem?_append_left hi] at h
      obtain ⟨after, ha⟩ := iht i s h
      refine ⟨after ++ forest_nodes ts, ?_⟩
      rw [List.drop_append_of_le_length (by omega), ha, List.append_assoc]
    · rw [List.getElem?_append_right (by omega)] at h
      obtain ⟨after, ha⟩ := ihts _ s h
      refine ⟨after, ?_⟩
      rw [List.drop_append_eq_append_drop, List.drop_eq_nil_of_le (by omega), List.nil_append, ha]

/-- The descendants of the node at pre-order position `i` are the nodes at the
positions that follow, as many as it has descendants. -/
theorem descendants_follow (ts : List tree) (i : Nat) (s : tree)
    (h : (forest_nodes ts)[i]? = some s) :
    forest_nodes s.children =
      ((forest_nodes ts).drop (i + 1)).take (forest_nodes s.children).length := by
  obtain ⟨after, ha⟩ := nodes_drop.2 ts i s h
  have : (forest_nodes ts).drop (i + 1) = forest_nodes s.children ++ after := by
    rw [← List.drop_drop, ha, tree_nodes_eq]
    simp
  rw [this, List.take_left']
  rfl

/-- C2: in the built forest the descendants of the node of line `i` are exactly
the nodes of the lines `i+1 .. m-1`, where `m` is the first index after `i`
whose indent is not greater than that of line `i` (the number of lines when
there is none), measured over the whole sequence; and these lines are grouped
into the children by the same procedure. -/
theorem descendants_are_following_run (L : List line_pair) (i : Nat) (li : line_pair)
    (h : L[i]? = some li) :
    ∃ (m : Nat) (t : tree), i < m ∧ m ≤ L.length ∧
      (∀ k lk, i < k → k < m → L[k]? = some lk → li.indent < lk.indent) ∧
      (∀ lm, L[m]? = some lm → lm.indent ≤ li.indent) ∧
      (forest_nodes (forest_from_line_indents L))[i]? = some t ∧
      t.value = li.str ∧
      forest_nodes t.children =
        ((forest_nodes (forest_from_line_indents L)).drop (i + 1)).take (m - (i + 1)) ∧
      t.children = forest_from_line_indents ((L.drop (i + 1)).take (m - (i + 1))) := by
  have hi : i < L.length := by
    rcases Nat.lt_or_ge i L.length with h' | h'
    · exact h'
    · rw [List.getElem?_eq_none h'] at h; cases h
  have hnode := forest_nodes_getElem L i li h
  have hle := lookahead_le li.indent (L.drop (i + 1))
  simp only [List.length_drop] at hle
  refine ⟨i + 1 + lookahead li.indent (L.drop (i + 1)), _, by omega, by omega, ?_, ?_,
    hnode, rfl, ?_, ?_⟩
  · intro k lk hik hkm hk
    apply lookahead_passed li.indent (L.drop (i + 1)) lk
    apply List.getElem?_mem (n := k - (i + 1))
    rw [List.getElem?_take_of_lt (by omega), List.getElem?_drop, ← hk]
    congr 1; omega
  · intro lm hm
    apply lookahead_stop li.indent (L.drop (i + 1)) lm
    rw [List.getElem?_drop, ← hm]
  · have hd := descendants_follow _ i _ hnode
    simp only [tree.children] at hd ⊢
    rw [forest_nodes_length] at hd
    simp only [run_after, List.length_take, List.length_drop] at hd ⊢
    rw [hd]
    congr 1
    omega
  · simp only [tree.children, run_after]
    congr 2
    omega

/-- Witness for C2 on the lines `A`(0), `B`(1), `C`(0) at line 0. -/
theorem descendants_are_following_run_witness :
    ∃ (m : Nat) (t : tree), 0 < m ∧ m ≤ 3 ∧
      (∀ k lk, 0 < k → k < m →
        [line_pair.mk 0 ['A'], ⟨1, ['B']⟩, ⟨0, ['C']⟩][k]? = some lk → (0 : Int) < lk.indent) ∧
      (∀ lm, [line_pair.mk 0 ['A'], ⟨1, ['B']⟩, ⟨0, ['C']⟩][m]? = some lm → lm.indent ≤ 0) ∧
      (forest_nodes (forest_from_line_indents
        [line_pair.mk 0 ['A'], ⟨1, ['B']⟩, ⟨0, ['C']⟩]))[0]? = some t ∧
      t.value = ['A'] ∧
      forest_nodes t.children =
        ((forest_nodes (forest_from_line_indents
          [line_pair.mk 0 ['A'], ⟨1, ['B']⟩, ⟨0, ['C']⟩])).drop (0 + 1)).take (m - (0 + 1)) ∧
      t.children = forest_from_line_indents
        (([line_pair.mk 0 ['A'], ⟨1, ['B']⟩, ⟨0, ['C']⟩].drop (0 + 1)).take (m - (0 + 1))) :=
  descendants_are_following_run [⟨0, ['A']⟩, ⟨1, ['B']⟩, ⟨0, ['C']⟩] 0 ⟨0, ['A']⟩ rfl

/-! ## Paths and pre-order positions -/

theorem forest_paths_cons (i : Nat) (v : List Char) (cs ts : List tree) :
    forest_paths i (tree.node v cs :: ts) =
      [i] :: ((forest_paths 0 cs).map (fun p => i :: p) ++ forest_paths (i + 1) ts) := by
  simp [forest_paths, tree.paths]

/-- Every path of `forest_paths i ts` starts with an index from `i` on. -/
theorem forest_paths_head (ts : List tree) :
    ∀ (i : Nat) (q : List Nat), q ∈ forest_paths i ts → ∃ j r, q = j :: r ∧ i ≤ j := by
  induction ts with
  | nil => intro i q h; simp [forest_paths] at h
  | cons t ts ih =>
    intro i q h
    simp only [forest_paths, List.mem_append, List.mem_map] at h
    rcases h with ⟨r, _, rfl⟩ | h
    · exact ⟨i, r, rfl, le_refl _⟩
    · obtain ⟨j, r, hq, hj⟩ := ih (i + 1) q h
      exact ⟨j, r, hq, by omega⟩

theorem forest_paths_ne_nil (ts : List tree) (i : Nat) (q : List Nat)
    (h : q ∈ forest_paths i ts) : q ≠ [] := by
  obtain ⟨j, r, rfl, _⟩ := forest_paths_head ts i q h
  simp

/-- There are as many paths as nodes. -/
theorem paths_length :
    (∀ t : tree, t.paths.length = t.nodes.length) ∧
    (∀ ts : List tree, ∀ i, (forest_paths i ts).length = (forest_nodes ts).length) := by
  apply tree_forest_induction
  · intro v cs ih
    simp [tree.paths, tree.nodes, ih 0]
  · intro i; rfl
  · intro t ts iht ihts i
    simp [forest_paths, forest_nodes, iht, ihts (i + 1)]

theorem node_at_step (S : List tree) (i : Nat) (t : tree) (r : List Nat)
    (hS : S[i]? = some t) (hr : r ≠ []) : node_at S (i :: r) = node_at t.children r := by
  cases r with
  | nil => exact absurd rfl hr
  | cons j p => simp [node_at, hS]

theorem is_final_step (S : List tree) (i : Nat) (t : tree) (r : List Nat)
    (hS : S[i]? = some t) (hr : r ≠ []) : is_final S (i :: r) = is_final t.children r := by
  cases r with
  | nil => exact absurd rfl hr
  | cons j p => simp [is_final, hS]

/-- The path at a pre-order position leads to the node at that position. -/
theorem paths_node_at :
    (∀ (t : tree) (pre post : List tree),
      t.paths.map (fun r => node_at (pre ++ t :: post) (pre.length :: r)) =
        t.nodes.map some) ∧
    (∀ (ts : List tree) (pre : List tree),
      (forest_paths pre.length ts).map (node_at (pre ++ ts)) = (forest_nodes ts).map some) := by
  apply tree_forest_induction
  · intro v cs ih pre post
    have hS : (pre ++ tree.node v cs :: post)[pre.length]? = some (tree.node v cs) := by
      rw [List.getElem?_append_right (le_refl _)]
      simp
    simp only [tree.paths, tree.nodes, List.map_cons, List.map_map]
    refine congrArg₂ List.cons ?_ ?_
    · simpa [node_at] using hS
    · rw [← ih []]
      apply List.map_congr_left
      intro r hr
      simp only [Function.comp, List.nil_append]
      rw [node_at_step _ _ _ r hS (forest_paths_ne_nil cs _ r hr)]
      rfl
  · intro pre; rfl
  · intro t ts iht ihts pre
    simp only [forest_paths, forest_nodes, List.map_append, List.map_map]
    congr 1
    · exact iht pre ts
    · have := ihts (pre ++ [t])
      simpa using this

theorem preorder_paths_length (F : List tree) :
    (preorder_paths F).length = (forest_nodes F).length :=
  paths_length.2 F 0

/-- The path at pre-order position `k` leads to the node at position `k`. -/
theorem preorder_paths_node_at (F : List tree) (k : Nat) (q : List Nat)
    (h : (preorder_paths F)[k]? = some q) : node_at F q = (forest_nodes F)[k]? := by
  have := congrArg (fun l => l[k]?) (paths_node_at.2 F [])
  simp only [List.length_nil, List.nil_append, List.getElem?_map] at this
  rw [show forest_paths 0 F = preorder_paths F from rfl, h] at this
  simp only [Option.map_some'] at this
  cases hk : (forest_nodes F)[k]? with
  | none => rw [hk] at this; cases this
  | some t => rw [hk] at this; exact Option.some.inj this

/-! ## The parent of a line's node -/

/-- The paths of the built forest, by line: a line that no earlier line
undercuts gets a path of one index, and the path of any other line extends the
path of the nearest earlier line with a smaller indent by one index. -/
theorem forest_paths_parent (ls : List line_pair) :
    ∀ (o j : Nat) (lj : line_pair), ls[j]? = some lj →
      ∃ q, (forest_paths o (forest_from_line_indents ls))[j]? = some q ∧
        ((∀ i li, i < j → ls[i]? = some li → lj.indent ≤ li.indent) → ∃ c, q = [c]) ∧
        (∀ i li, i < j → ls[i]? = some li → li.indent < lj.indent →
          (∀ k lk, i < k → k < j → ls[k]? = some lk → lj.indent ≤ lk.indent) →
          2 ≤ q.length ∧
            (forest_paths o (forest_from_line_indents ls))[i]? = some q.dropLast) := by
  induction ls using forest_induction with
  | hnil => intro o j lj h; simp at h
  | hcons cur rest ihA ihB =>
    intro o j lj h
    rw [forest_cons, forest_paths_cons]
    have hn := lookahead_le cur.indent rest
    have hlenA : ((forest_paths 0 (forest_from_line_indents
        (rest.take (lookahead cur.indent rest)))).map (fun p => o :: p)).length =
          lookahead cur.indent rest := by
      rw [List.length_map, paths_length.2, forest_nodes_length]; simp; omega
    cases j with
    | zero =>
      refine ⟨[o], by simp, fun _ => ⟨o, rfl⟩, ?_⟩
      intro i li hi; omega
    | succ j =>
      simp only [List.getElem?_cons_succ] at h
      by_cases hj : j < lookahead cur.indent rest
      · -- line `j + 1` lies in the span of the current line
        have hA : (rest.take (lookahead cur.indent rest))[j]? = some lj := by
          rw [List.getElem?_take_of_lt hj]; exact h
        have hlj : cur.indent < lj.indent :=
          lookahead_passed cur.indent rest lj (List.getElem?_mem hA)
        obtain ⟨q, hq, h1, h2⟩ := ihA 0 j lj hA
        have hqne : q ≠ [] := forest_paths_ne_nil _ _ q (List.getElem?_mem hq)
        refine ⟨o :: q, ?_, ?_, ?_⟩
        · simp only [List.getElem?_cons_succ]
          rw [List.getElem?_append_left (by omega), List.getElem?_map, hq]; rfl
        · intro H
          have := H 0 cur (by omega) (by simp)
          omega
        · intro i li hi hLi hlt hbetween
          cases i with
          | zero =>
            obtain ⟨c, hc⟩ := h1 (by
              intro i' li' hi' hAi'
              rw [List.getElem?_take_of_lt (by omega)] at hAi'
              exact hbetween (i' + 1) li' (by omega) (by omega) (by simpa using hAi'))
            subst hc
            simp
          | succ i =>
            simp only [List.getElem?_cons_succ] at hLi ⊢
            obtain ⟨hlen, hpar⟩ := h2 i li (by omega)
              (by rw [List.getElem?_take_of_lt (by omega)]; exact hLi) hlt (by
                intro k lk hik hkj hAk
                rw [List.getElem?_take_of_lt (by omega)] at hAk
                exact hbetween (k + 1) lk (by omega) (by omega) (by simpa using hAk))
            refine ⟨by simp; omega, ?_⟩
            rw [List.getElem?_append_left (by omega), List.getElem?_map, hpar,
              List.dropLast_cons_of_ne_nil hqne]
            rfl
      · -- line `j + 1` comes after the span of the current line
        have hB : (rest.drop (lookahead cur.indent rest))[j - lookahead cur.indent rest]? =
            some lj := by
          rw [List.getElem?_drop, ← h]; congr 1; omega
        have hjlen : j < rest.length := by
          rcases Nat.lt_or_ge j rest.length with h' | h'
          · exact h'
          · rw [List.getElem?_eq_none h'] at h; cases h
        obtain ⟨b0, hb0⟩ : ∃ b0, rest[lookahead cur.indent rest]? = some b0 :=
          ⟨rest[lookahead cur.indent rest], List.getElem?_eq_getElem (by omega)⟩
        have hb0le : b0.indent ≤ cur.indent := lookahead_stop cur.indent rest b0 hb0
        have key : ∀ i li, i ≤ lookahead cur.indent rest → (cur :: rest)[i]? = some li →
            li.indent < lj.indent →
            (∀ k lk, i < k → k < j + 1 → (cur :: rest)[k]? = some lk →
              lj.indent ≤ lk.indent) → False := by
          intro i li hi hLi hlt hbetween
          have hli : cur.indent ≤ li.indent := by
            cases i with
            | zero =>
              simp only [List.getElem?_cons_zero, Option.some.injEq] at hLi
              subst hLi; exact le_refl _
            | succ i =>
              simp only [List.getElem?_cons_succ] at hLi
              have : li ∈ rest.take (lookahead cur.indent rest) := by
                apply List.getElem?_mem (n := i)
                rw [List.getElem?_take_of_lt (by omega)]; exact hLi
              have := lookahead_passed cur.indent rest li this
              omega
          by_cases hjn : j = lookahead cur.indent rest
          · subst hjn
            rw [hb0] at h
            simp only [Option.some.injEq] at h
            subst h
            omega
          · have := hbetween (lookahead cur.indent rest + 1) b0 (by omega) (by omega)
              (by simpa using hb0)
            omega
        obtain ⟨q, hq, h1, h2⟩ := ihB (o + 1) (j - lookahead cur.indent rest) lj hB
        refine ⟨q, ?_, ?_, ?_⟩
        · simp only [List.getElem?_cons_succ]
          rw [List.getElem?_append_right (by omega), hlenA]
          exact hq
        · intro H
          apply h1
          intro i li hi hBi
          rw [List.getElem?_drop] at hBi
          exact H (lookahead cur.indent rest + i + 1) li (by omega) (by simpa using hBi)
        · intro i li hi hLi hlt hbetween
          have hin : lookahead cur.indent rest < i := by
            by_contra hcon
            exact key i li (by omega) hLi hlt hbetween
          obtain ⟨i', rfl⟩ : ∃ i', i = i' + 1 := ⟨i - 1, by omega⟩
          simp only [List.getElem?_cons_succ] at hLi ⊢
          obtain ⟨hlen, hpar⟩ := h2 (i' - lookahead cur.indent rest) li (by omega)
            (by rw [List.getElem?_drop, ← hLi]; congr 1; omega) hlt (by
              intro k lk hik hkj hBk
              rw [List.getElem?_drop] at hBk
              exact hbetween (lookahead cur.indent rest + k + 1) lk (by omega) (by omega)
                (by simpa using hBk))
          refine ⟨hlen, ?_⟩
          rw [List.getElem?_append_right (by omega), hlenA]
          exact hpar

/-- Among the lines before line `j`, either none has a smaller indent or there
is a nearest one that has. -/
theorem nearest_smaller (ls : List line_pair) (x : Int) :
    ∀ j : Nat, (∀ i li, i < j → ls[i]? = some li → x ≤ li.indent) ∨
      ∃ i li, i < j ∧ ls[i]? = some li ∧ li.indent < x ∧
        ∀ k lk, i < k → k < j → ls[k]? = some lk → x ≤ lk.indent := by
  intro j
  induction j with
  | zero => left; intro i li hi; omega
  | succ j ih =>
    cases hj : ls[j]? with
    | none =>
      rcases ih with h | ⟨i, li, hi, hli, hlt, hb⟩
      · left
        intro i li hi hli
        rcases Nat.lt_or_ge i j with h' | h'
        · exact h i li h' hli
        · have : i = j := by omega
          subst this; rw [hj] at hli; cases hli
      · right
        refine ⟨i, li, by omega, hli, hlt, ?_⟩
        intro k lk hik hkj hk
        rcases Nat.lt_or_ge k j with h' | h'
        · exact hb k lk hik h' hk
        · have : k = j := by omega
          subst this; rw [hj] at hk; cases hk
    | some l =>
      by_cases hl : l.indent < x
      · right
        exact ⟨j, l, by omega, hj, hl, fun k lk hjk hkj _ => by omega⟩
      · rcases ih with h | ⟨i, li, hi, hli, hlt, hb⟩
        · left
          intro i li hi hli
          rcases Nat.lt_or_ge i j with h' | h'
          · exact h i li h' hli
          · have : i = j := by omega
            subst this; rw [hj] at hli; cases hli; omega
        · right
          refine ⟨i, li, by omega, hli, hlt, ?_⟩
          intro k lk hik hkj hk
          rcases Nat.lt_or_ge k j with h' | h'
          · exact hb k lk hik h' hk
          · have : k = j := by omega
            subst this; rw [hj] at hk; cases hk; omega

/-- Following a path and then one more index is taking a child of the node the
path leads to. -/
theorem node_at_append_singleton (p : List Nat) (c : Nat) :
    ∀ F : List tree, p ≠ [] →
      node_at F (p ++ [c]) = (node_at F p).bind (fun t => t.children[c]?) := by
  induction p with
  | nil => intro F h; exact absurd rfl h
  | cons i p ih =>
    intro F _
    cases p with
    | nil =>
      simp only [List.cons_append, List.nil_append, node_at]
      cases F[i]? <;> simp [node_at]
    | cons j p =>
      simp only [List.cons_append, node_at]
      cases F[i]? with
      | none => rfl
      | some t => exact ih t.children (by simp)

/-- C1: in the built forest the node of line `j` (the node at pre-order position
`j`, which carries the label of line `j`) is a top-level tree if and only if no
earlier line has a strictly smaller indent; otherwise it is a child of the node
of the nearest preceding line with a strictly smaller indent. -/
theorem parent_is_nearest_smaller_indent (L : List line_pair) (j : Nat) (lj : line_pair)
    (h : L[j]? = some lj) :
    ∃ (q : List Nat) (t : tree),
      (preorder_paths (forest_from_line_indents L))[j]? = some q ∧
      node_at (forest_from_line_indents L) q = some t ∧ t.value = lj.str ∧
      ((∃ c, q = [c] ∧ (forest_from_line_indents L)[c]? = some t) ↔
        ∀ i li, i < j → L[i]? = some li → ¬ li.indent < lj.indent) ∧
      (∀ i li, i < j → L[i]? = some li → li.indent < lj.indent →
        (∀ k lk, i < k → k < j → L[k]? = some lk → ¬ lk.indent < lj.indent) →
        ∃ (qi : List Nat) (ti : tree) (c : Nat),
          (preorder_paths (forest_from_line_indents L))[i]? = some qi ∧
          node_at (forest_from_line_indents L) qi = some ti ∧ ti.value = li.str ∧
          q = qi ++ [c] ∧ ti.children[c]? = some t) := by
  obtain ⟨q, hq, h1, h2⟩ := forest_paths_parent L 0 j lj h
  have hnode := forest_nodes_getElem L j lj h
  have hat := preorder_paths_node_at _ j q hq
  rw [hnode] at hat
  have hparent : ∀ i li, i < j → L[i]? = some li → li.indent < lj.indent →
      (∀ k lk, i < k → k < j → L[k]? = some lk → ¬ lk.indent < lj.indent) →
      2 ≤ q.length ∧ (preorder_paths (forest_from_line_indents L))[i]? = some q.dropLast := by
    intro i li hi hli hlt hb
    exact h2 i li hi hli hlt (fun k lk hik hkj hk => not_lt.mp (hb k lk hik hkj hk))
  refine ⟨q, _, hq, hat, rfl, ⟨?_, ?_⟩, ?_⟩
  · rintro ⟨c, rfl, _⟩ i li hi hli hlt
    rcases nearest_smaller L lj.indent j with hnone | ⟨i', li', hi', hli', hlt', hb'⟩
    · have := hnone i li hi hli
      omega
    · have := (h2 i' li' hi' hli' hlt' hb').1
      simp at this
  · intro hnone
    obtain ⟨c, rfl⟩ := h1 (fun i li hi hli => not_lt.mp (hnone i li hi hli))
    refine ⟨c, rfl, ?_⟩
    simpa [node_at] using hat
  · intro i li hi hli hlt hb
    obtain ⟨hlen, hpi⟩ := hparent i li hi hli hlt hb
    have hqne : q ≠ [] := by intro hnil; rw [hnil] at hlen; simp at hlen
    have hdne : q.dropLast ≠ [] := by
      intro hnil
      have := congrArg List.length hnil
      simp at this
      omega
    have hati := preorder_paths_node_at _ i _ hpi
    rw [forest_nodes_getElem L i li hli] at hati
    have hsplit : q = q.dropLast ++ [q.getLast hqne] := (List.dropLast_append_getLast hqne).symm
    refine ⟨q.dropLast, _, q.getLast hqne, hpi, hati, rfl, hsplit, ?_⟩
    have := node_at_append_singleton q.dropLast (q.getLast hqne) (forest_from_line_indents L) hdne
    rw [← hsplit, hat, hati] at this
    simpa using this.symm

/-- Witness for C1: line 1 of `A`(0), `B`(1), `C`(0). -/
theorem parent_is_nearest_smaller_indent_witness :
    example_lines[1]? = some ⟨1, ['B']⟩ ∧
    ∃ (q : List Nat) (t : tree),
      (preorder_paths (forest_from_line_indents example_lines))[1]? = some q ∧
      node_at (forest_from_line_indents example_lines) q = some t ∧ t.value = ['B'] ∧
      ((∃ c, q = [c] ∧ (forest_from_line_indents example_lines)[c]? = some t) ↔
        ∀ i li, i < 1 → example_lines[i]? = some li → ¬ li.indent < (1 : Int)) ∧
      (∀ i li, i < 1 → example_lines[i]? = some li → li.indent < (1 : Int) →
        (∀ k lk, i < k → k < 1 → example_lines[k]? = some lk → ¬ lk.indent < (1 : Int)) →
        ∃ (qi : List Nat) (ti : tree) (c : Nat),
          (preorder_paths (forest_from_line_indents example_lines))[i]? = some qi ∧
          node_at (forest_from_line_indents example_lines) qi = some ti ∧ ti.value = li.str ∧
          q = qi ++ [c] ∧ ti.children[c]? = some t) :=
  ⟨rfl, parent_is_nearest_smaller_indent example_lines 1 ⟨1, ['B']⟩ rfl⟩

/-! ## The parser: tokens and input lines -/

/-- A segment that starts the text and holds a character is the first input
line; the rest of the lines are those of the text after its newline. -/
theorem input_lines_token (s : List Char) (h : s.takeWhile (· != '\n') ≠ []) :
    input_lines s =
      s.takeWhile (· != '\n') :: input_lines ((s.dropWhile (· != '\n')).drop 1) := by
  induction s with
  | nil => simp at h
  | cons c cs ih =>
    have hc : c ≠ '\n' := by
      intro hc; subst hc; simp [List.takeWhile] at h
    have hc' : (c != '\n') = true := by simpa using hc
    simp only [List.takeWhile_cons, List.dropWhile_cons, hc', if_true]
    cases cs with
    | nil => simp [input_lines, hc]
    | cons d ds =>
      by_cases hd : d = '\n'
      · subst hd
        simp [input_lines, hc]
      · have hd' : (d != '\n') = true := by simpa using hd
        have := ih (by simp [List.takeWhile_cons, hd'])
        rw [input_lines, if_neg hc, this]

theorem nonempty_lines_dropWhile (s : List Char) :
    nonempty_lines (s.dropWhile (· == '\n')) = nonempty_lines s := by
  induction s with
  | nil => rfl
  | cons c cs ih =>
    by_cases hc : c = '\n'
    · subst hc
      simp only [List.dropWhile_cons, beq_self_eq_true, if_true, ih]
      simp [nonempty_lines, input_lines]
    · have : (c == '\n') = false := by simpa using hc
      simp [List.dropWhile_cons, this]

theorem strtok_r_none (s : List Char) (h : strtok_r s = none) : nonempty_lines s = [] := by
  unfold strtok_r at h
  split at h
  · next heq => rw [← nonempty_lines_dropWhile, heq]; rfl
  · cases h

theorem strtok_r_some (s line saveptr : List Char) (h : strtok_r s = some (line, saveptr)) :
    nonempty_lines s = line :: nonempty_lines saveptr ∧ line ≠ [] ∧
      saveptr.length < s.length := by
  unfold strtok_r at h
  split at h
  · cases h
  · next c cs heq =>
    simp only [Option.some.injEq, Prod.mk.injEq] at h
    obtain ⟨h1, h2⟩ := h
    have hc : (c == '\n') = false := by
      have := List.head_dropWhile_not (· == '\n') s (by rw [heq]; simp)
      simpa [heq] using this
    have hc' : (c != '\n') = true := by simpa using hc
    have hne : (c :: cs).takeWhile (· != '\n') ≠ [] := by
      simp [List.takeWhile_cons, hc']
    have hlen1 : (c :: cs).length ≤ s.length := by
      rw [← heq]; exact (List.dropWhile_sublist _).length_le
    have hlen2 : ((c :: cs).takeWhile (· != '\n')).length
        + ((c :: cs).dropWhile (· != '\n')).length = (c :: cs).length := by
      rw [← List.length_append, List.takeWhile_append_dropWhile]
    have hlen3 : 0 < ((c :: cs).takeWhile (· != '\n')).length :=
      List.length_pos.mpr hne
    refine ⟨?_, ?_, ?_⟩
    · rw [← nonempty_lines_dropWhile, heq]
      unfold nonempty_lines
      rw [input_lines_token _ hne, h1, h2, List.filter_cons_of_pos]
      rw [← h1]
      cases hh : (c :: cs).takeWhile (· != '\n') with
      | nil => exact absurd hh hne
      | cons _ _ => rfl
    · rw [← h1]; exact hne
    · rw [← h2]
      simp only [List.length_drop]
      omega

/-- The parsing loop emits one Line for every input line that holds at least
one character, in order. -/
theorem parse_loop_eq (fuel : Nat) :
    ∀ s : List Char, s.length ≤ fuel →
      parse_loop fuel s = (nonempty_lines s).map parse_line := by
  induction fuel with
  | zero =>
    intro s h
    have : s = [] := List.length_eq_zero.mp (Nat.le_zero.mp h)
    subst this
    rfl
  | succ fuel ih =>
    intro s h
    simp only [parse_loop]
    cases hs : strtok_r s with
    | none => simp [strtok_r_none s hs]
    | some p =>
      obtain ⟨line, saveptr⟩ := p
      obtain ⟨h1, _, h3⟩ := strtok_r_some s line saveptr hs
      simp only [h1, List.map_cons]
      rw [ih saveptr (by omega)]

theorem parse_lines_eq (text : List Char) :
    parse_lines text = (nonempty_lines text).map parse_line :=
  parse_loop_eq text.length text (le_refl _)

theorem input_lines_no_newline (s : List Char) :
    ∀ seg ∈ input_lines s, '\n' ∉ seg := by
  induction s with
  | nil => simp [input_lines]
  | cons c cs ih =>
    intro seg hseg
    simp only [input_lines] at hseg
    split at hseg
    · simp only [List.mem_cons] at hseg
      rcases hseg with rfl | hseg
      · simp
      · exact ih seg hseg
    · next hc =>
      split at hseg
      · simp only [List.mem_singleton] at hseg
        subst hseg
        simpa using fun h => hc h.symm
      · next seg0 segs heq =>
        simp only [List.mem_cons] at hseg
        rcases hseg with rfl | hseg
        · have := ih seg0 (by rw [heq]; simp)
          simp only [List.mem_cons, not_or]
          exact ⟨fun h => hc h.symm, this⟩
        · exact ih seg (by rw [heq]; simp [hseg])

theorem trimmed_subset (line : List Char) : ∀ c ∈ trimmed line, c ∈ line := by
  induction line with
  | nil => simp [trimmed]
  | cons a as ih =>
    intro c hc
    simp only [trimmed] at hc
    split at hc
    · exact List.mem_cons_of_mem _ (ih c hc)
    · exact hc

/-- No label that the parser produces holds a newline. -/
theorem parse_lines_no_newline (text : List Char) :
    ∀ l ∈ parse_lines text, '\n' ∉ l.str := by
  intro l hl
  rw [parse_lines_eq, List.mem_map] at hl
  obtain ⟨seg, hseg, rfl⟩ := hl
  have := input_lines_no_newline text seg (List.mem_filter.mp hseg).1
  exact fun h => this (trimmed_subset seg _ h)

/-- Counterexample to C4 as stated: the text `a`, empty line, `b` has three
input lines and the tree gets two nodes under the root. -/
theorem empty_line_gives_no_node :
    ¬ ((forest_nodes (tree_from_text ['a', '\n', '\n', 'b']).children).length =
        (input_lines ['a', '\n', '\n', 'b']).length) := by
  decide

/-- C4 (amended): the number of non-root nodes of `tree_from_text text`, and the
number of Lines the parser emits, equal the number of input lines that hold at
least one character (blank lines made of whitespace included, empty lines
not). -/
theorem node_count_is_nonempty_line_count (text : List Char) :
    (parse_lines text).length = (nonempty_lines text).length ∧
    (forest_nodes (tree_from_text text).children).length = (nonempty_lines text).length := by
  have h := parse_lines_eq text
  constructor
  · rw [h, List.length_map]
  · simp only [tree_from_text, tree.children]
    rw [forest_nodes_length, h, List.length_map]

/-- C8: for the empty text `tree_from_text` returns the root `.` without
children and `draw_tree` prints the single line `.`; for every text the root
is labelled `.` and its children are the forest built from the parsed lines. -/
theorem root_is_dot :
    tree_from_text [] = tree.node ['.'] [] ∧
    draw_tree (tree_from_text []) = [['.']] ∧
    ∀ text : List Char, (tree_from_text text).value = ['.'] ∧
      (tree_from_text text).children = forest_from_line_indents (parse_lines text) :=
  ⟨rfl, rfl, fun _ => ⟨rfl, rfl⟩⟩

/-! ## Indent and label of a line -/

theorem indent_loop_eq (cs : List Char) :
    ∀ (i : Nat) (indent : Int),
      indent_loop cs i indent =
        indent + ((leading_run cs).count '\t' + even_space_count i (leading_run cs) : Nat) := by
  induction cs with
  | nil => intro i indent; simp [indent_loop, leading_run, even_space_count]
  | cons c cs ih =>
    intro i indent
    simp only [indent_loop]
    by_cases ht : c = '\t'
    · subst ht
      simp only [or_true, if_true, ih]
      simp [leading_run, List.takeWhile_cons, even_space_count, List.enumFrom]
      omega
    · by_cases hs : c = ' '
      · subst hs
        simp only [true_or, if_true, if_neg ht]
        by_cases hi : i % 2 = 0
        · simp only [hi, if_true, ih]
          simp [leading_run, List.takeWhile_cons, even_space_count, List.enumFrom, hi]
          omega
        · simp only [hi, if_false, ih]
          simp [leading_run, List.takeWhile_cons, even_space_count, List.enumFrom, hi]
      · have : ¬ (c = ' ' ∨ c = '\t') := by simp [hs, ht]
        simp [this, leading_run, List.takeWhile_cons, hs, ht, even_space_count]

/-- C9: the indent computed for a line is the number of tabs in its leading run
of spaces and tabs plus the number of spaces of that run at an even zero-based
position of the run; what follows the run contributes nothing. -/
theorem indent_is_tabs_plus_even_spaces (line : List Char) :
    (parse_line line).indent = (run_units (leading_run line) : Int) ∧
    (parse_line line).indent = (parse_line (leading_run line)).indent := by
  have h1 := indent_loop_eq line 0 0
  have h2 := indent_loop_eq (leading_run line) 0 0
  have hrun : leading_run (leading_run line) = leading_run line := by
    simp only [leading_run]
    exact List.takeWhile_idem
  rw [hrun] at h2
  simp only [parse_line, line_indent, run_units]
  constructor
  · rw [h1]; simp
  · rw [h1, h2]

theorem trimmed_decomp (line : List Char) :
    ∃ w, line = w ++ trimmed line ∧ (∀ c ∈ w, isspace c = true) ∧
      (∀ c rest, trimmed line = c :: rest → isspace c = false) := by
  induction line with
  | nil => exact ⟨[], rfl, by simp, by simp [trimmed]⟩
  | cons a as ih =>
    by_cases ha : isspace a = true
    · obtain ⟨w, hw, hall, hhead⟩ := ih
      refine ⟨a :: w, ?_, ?_, ?_⟩
      · simp only [trimmed, ha, if_true, List.cons_append]
        rw [← hw]
      · intro c hc
        simp only [List.mem_cons] at hc
        rcases hc with rfl | hc
        · exact ha
        · exact hall c hc
      · simpa only [trimmed, ha, if_true] using hhead
    · refine ⟨[], ?_, by simp, ?_⟩
      · simp [trimmed, ha]
      · intro c rest h
        simp only [trimmed, ha] at h
        simp only [Bool.false_eq_true, ↓reduceIte, List.cons.injEq] at h
        rw [← h.1]
        simpa using ha

theorem isspace_iff (c : Char) : isspace c = true ↔ (c = '\n' ∨ is_blank c = true) := by
  simp only [isspace, is_blank, Bool.or_eq_true, beq_iff_eq]
  tauto

/-- C10: the label computed for a line without newline is the line with its
leading whitespace removed: the line is `w ++ label` with `w` made of
whitespace and `label` empty or starting with a character that is not
whitespace; nothing is removed at the end, so a label that is not empty ends
as the line does; a line made of whitespace only gets the empty label. -/
theorem label_is_line_without_leading_whitespace (line : List Char)
    (h : '\n' ∉ line) :
    (∃ w, line = w ++ (parse_line line).str ∧ (∀ c ∈ w, is_blank c = true) ∧
      ((parse_line line).str = [] ∨
        ∃ c rest, (parse_line line).str = c :: rest ∧ is_blank c = false)) ∧
    ((parse_line line).str ≠ [] → (parse_line line).str.getLast? = line.getLast?) ∧
    ((∀ c ∈ line, is_blank c = true) → (parse_line line).str = []) := by
  obtain ⟨w, hw, hall, hhead⟩ := trimmed_decomp line
  have hblank : ∀ c ∈ w, is_blank c = true := by
    intro c hc
    rcases (isspace_iff c).mp (hall c hc) with rfl | hb
    · exact absurd (by rw [hw]; simp [hc]) h
    · exact hb
  simp only [parse_line]
  refine ⟨⟨w, hw, hblank, ?_⟩, ?_, ?_⟩
  · cases ht : trimmed line with
    | nil => left; rfl
    | cons c rest =>
      right
      refine ⟨c, rest, rfl, ?_⟩
      rw [Bool.eq_false_iff]
      intro hb
      have := hhead c rest ht
      rw [(isspace_iff c).mpr (Or.inr hb)] at this
      cases this
  · intro hne
    conv_rhs => rw [hw]
    rw [List.getLast?_append_of_ne_nil _ hne]
  · intro hline
    cases ht : trimmed line with
    | nil => rfl
    | cons c rest =>
      have hc : c ∈ line := by rw [hw, ht]; simp
      have := hhead c rest ht
      rw [(isspace_iff c).mpr (Or.inr (hline c hc))] at this
      cases this

/-- Witness for C10: the line ` a` followed by a carriage return keeps the
carriage return in its label. -/
theorem label_is_line_without_leading_whitespace_witness :
    '\n' ∉ [' ', 'a', '\r'] ∧ (parse_line [' ', 'a', '\r']).str = ['a', '\r'] ∧
    ((parse_line [' ', 'a', '\r']).str ≠ [] →
      (parse_line [' ', 'a', '\r']).str.getLast? = [' ', 'a', '\r'].getLast?) :=
  ⟨by decide, by decide,
    (label_is_line_without_leading_whitespace [' ', 'a', '\r'] (by decide)).2.1⟩

/-! ## The renderer, line by line -/

theorem ancestor_bars_single (S : List tree) (i : Nat) : ancestor_bars S [i] = [] := by
  simp [ancestor_bars]

theorem ancestor_bars_step (S : List tree) (i : Nat) (t : tree) (r : List Nat)
    (hS : S[i]? = some t) (hr : r ≠ []) :
    ancestor_bars S (i :: r) =
      (if is_final S [i] then [' ', ' ', ' '] else ['│', ' ', ' '])
        ++ ancestor_bars t.children r := by
  obtain ⟨n, hn⟩ : ∃ n, r.length = n + 1 :=
    ⟨r.length - 1, by have := List.length_pos.mpr hr; omega⟩
  simp only [ancestor_bars, List.length_cons, hn, Nat.add_sub_cancel]
  rw [List.range_succ_eq_map, List.map_cons, List.flatten_cons, List.map_map]
  congr 2
  apply List.map_congr_left
  intro j hj
  have hjn : j < n := List.mem_range.mp hj
  simp only [Function.comp, List.take_succ_cons]
  have hne : r.take (j + 1) ≠ [] := by
    intro hnil
    have := congrArg List.length hnil
    simp only [List.length_take, List.length_nil, hn] at this
    omega
  have := is_final_step S i t _ hS hne
  simp only [this]

theorem diagram_line_step (S : List tree) (i : Nat) (t : tree) (r : List Nat)
    (hS : S[i]? = some t) (hr : r ≠ []) :
    diagram_line S (i :: r) =
      (if is_final S [i] then [' ', ' ', ' '] else ['│', ' ', ' '])
        ++ diagram_line t.children r := by
  simp only [diagram_line, label_at]
  rw [ancestor_bars_step S i t r hS hr, is_final_step S i t r hS hr,
    node_at_step S i t r hS hr]
  simp only [List.append_assoc]

theorem branch_str_eq (b : Bool) :
    branch_str b = if b then [' ', ' ', ' '] else ['│', ' ', ' '] := by
  cases b <;> rfl

theorem is_last_eq (pre post : List tree) (t : tree) :
    (pre.length == (pre ++ t :: post).length - 1) = is_final (pre ++ t :: post) [pre.length] := by
  simp only [is_final, List.length_append, List.length_cons]
  by_cases h : post.length = 0
  · simp [h]
  · have h1 : ¬ (pre.length = pre.length + (post.length + 1) - 1) := by omega
    have h2 : ¬ (pre.length + 1 = pre.length + (post.length + 1)) := by omega
    have h3 : post ≠ [] := fun h' => h (by simp [h'])
    simp [h1, h2, h3]

/-- What `draw` prints for the trees from index `pre.length` on of a sequence:
under the indentation, the diagram line of every node in pre-order. -/
theorem draw_lines :
    (∀ (t : tree) (ind : List Char) (pre post : List tree),
      draw_node ind (pre.length == (pre ++ t :: post).length - 1) t =
        t.paths.map (fun r => ind ++ diagram_line (pre ++ t :: post) (pre.length :: r))) ∧
    (∀ (ts : List tree) (ind : List Char) (pre : List tree),
      draw_from ind (pre ++ ts).length pre.length ts =
        (forest_paths pre.length ts).map (fun q => ind ++ diagram_line (pre ++ ts) q)) := by
  apply tree_forest_induction
  · intro v cs ih ind pre post
    have hS : (pre ++ tree.node v cs :: post)[pre.length]? = some (tree.node v cs) := by
      rw [List.getElem?_append_right (le_refl _)]
      simp
    simp only [draw_node, tree.paths, List.map_cons, List.map_map]
    refine congrArg₂ List.cons ?_ ?_
    · simp only [diagram_line, ancestor_bars_single, label_at, node_at, hS, connector,
        is_last_eq]
      simp [tree.value]
    · have := ih (ind ++ branch_str (pre.length == (pre ++ tree.node v cs :: post).length - 1)) []
      simp only [List.nil_append, List.length_nil] at this
      rw [this]
      apply List.map_congr_left
      intro r hr
      rw [diagram_line_step _ _ _ r hS (forest_paths_ne_nil cs _ r hr), branch_str_eq,
        is_last_eq]
      rw [List.append_assoc]
      rfl
  · intro ind pre; rfl
  · intro t ts iht ihts ind pre
    simp only [draw_from, forest_paths, List.map_append, List.map_map]
    refine congrArg₂ (· ++ ·) ?_ ?_
    · exact iht ind pre ts
    · have := ihts ind (pre ++ [t])
      simpa using this

/-- The lines `draw` prints for a forest: its indentation followed by the
diagram line of each node, in pre-order. -/
theorem draw_eq (ind : List Char) (F : List tree) :
    draw ind F = (preorder_paths F).map (fun q => ind ++ diagram_line F q) := by
  have := draw_lines.2 F ind []
  simpa [draw, preorder_paths] using this

theorem draw_tree_getElem (root : tree) (k : Nat) (q : List Nat)
    (h : (preorder_paths root.children)[k]? = some q) :
    (draw_tree root)[k + 1]? = some (diagram_line root.children q) := by
  simp only [draw_tree, List.getElem?_cons_succ, draw_eq, List.getElem?_map, h]
  simp

/-! ## The paths enumerate the nodes -/

theorem node_at_cons_succ (t : tree) (ts : List tree) (j : Nat) (r : List Nat) :
    node_at (t :: ts) ((j + 1) :: r) = node_at ts (j :: r) := by
  cases r <;> simp [node_at]

theorem node_at_cons_zero (t : tree) (ts : List tree) (r : List Nat) :
    (node_at (t :: ts) (0 :: r)).isSome = true ↔
      r = [] ∨ (node_at t.children r).isSome = true := by
  cases r with
  | nil => simp [node_at]
  | cons j p => simp [node_at]

/-- A path is listed exactly when it leads to a node. -/
theorem mem_paths :
    (∀ (t : tree) (r : List Nat),
      r ∈ t.paths ↔ r = [] ∨ (node_at t.children r).isSome = true) ∧
    (∀ (ts : List tree) (i : Nat) (q : List Nat),
      q ∈ forest_paths i ts ↔
        ∃ j r, q = (i + j) :: r ∧ (node_at ts (j :: r)).isSome = true) := by
  apply tree_forest_induction
  · intro v cs ih r
    simp only [tree.paths, List.mem_cons, tree.children, ih]
    constructor
    · rintro (h | ⟨j, r', rfl, h⟩)
      · exact Or.inl h
      · right; simpa using h
    · rintro (h | h)
      · exact Or.inl h
      · right
        cases r with
        | nil => simp [node_at] at h
        | cons j r' => exact ⟨j, r', by simp, h⟩
  · intro i q
    simp only [forest_paths, List.not_mem_nil, false_iff]
    rintro ⟨j, r, _, h⟩
    cases r <;> simp [node_at] at h
  · intro t ts iht ihts i q
    simp only [forest_paths, List.mem_append, List.mem_map, iht, ihts]
    constructor
    · rintro (⟨r, hr, rfl⟩ | ⟨j, r, rfl, h⟩)
      · exact ⟨0, r, rfl, (node_at_cons_zero t ts r).mpr hr⟩
      · refine ⟨j + 1, r, by simp; omega, ?_⟩
        rw [node_at_cons_succ]; exact h
    · rintro ⟨j, r, rfl, h⟩
      cases j with
      | zero => exact Or.inl ⟨r, (node_at_cons_zero t ts r).mp h, rfl⟩
      | succ j =>
        right
        rw [node_at_cons_succ] at h
        exact ⟨j, r, by simp; omega, h⟩

/-- No path is listed twice. -/
theorem nodup_paths :
    (∀ t : tree, t.paths.Nodup) ∧ (∀ (ts : List tree) (i : Nat), (forest_paths i ts).Nodup) := by
  apply tree_forest_induction
  · intro v cs ih
    simp only [tree.paths, List.nodup_cons]
    exact ⟨fun h => forest_paths_ne_nil cs 0 [] h rfl, ih 0⟩
  · intro i; simp [forest_paths]
  · intro t ts iht ihts i
    simp only [forest_paths]
    rw [List.nodup_append]
    refine ⟨List.Nodup.map (fun a b h => by simpa using h) iht, ihts (i + 1), ?_⟩
    intro q h1 h2
    simp only [List.mem_map] at h1
    obtain ⟨r, _, rfl⟩ := h1
    obtain ⟨j, r', hq, hj⟩ := forest_paths_head ts (i + 1) _ h2
    simp only [List.cons.injEq] at hq
    omega

/-- C5: `draw_tree` prints exactly one line for every non-root node: the paths
in pre-order list every node of the root's forest once, there is one line after
the root's line for each of them, and the line of a node is a prefix, the
connector, one dash, one space and the node's label, where the connector is `└`
exactly when the node is the final element of the children sequence it stands
in, and `├` otherwise. -/
theorem one_line_per_node_with_connector (root : tree) :
    (preorder_paths root.children).Nodup ∧
    (∀ q, q ∈ preorder_paths root.children ↔ (node_at root.children q).isSome = true) ∧
    (draw_tree root).length = 1 + (preorder_paths root.children).length ∧
    ∀ k q, (preorder_paths root.children)[k]? = some q →
      ∃ (t : tree) (pfx : List Char), node_at root.children q = some t ∧
        (draw_tree root)[k + 1]? =
          some (pfx ++ (if is_final root.children q then ['└'] else ['├']) ++ ['─', ' ']
            ++ t.value) := by
  refine ⟨nodup_paths.2 _ 0, ?_, ?_, ?_⟩
  · intro q
    rw [preorder_paths, mem_paths.2]
    constructor
    · rintro ⟨j, r, rfl, h⟩
      simpa using h
    · intro h
      cases q with
      | nil => simp [node_at] at h
      | cons j r => exact ⟨j, r, by simp, h⟩
  · simp [draw_tree, draw_eq]
    omega
  · intro k q hq
    have hat := preorder_paths_node_at _ k q hq
    have hk : k < (forest_nodes root.children).length := by
      rw [← preorder_paths_length]
      rcases Nat.lt_or_ge k (preorder_paths root.children).length with h' | h'
      · exact h'
      · rw [List.getElem?_eq_none h'] at hq; cases hq
    rw [List.getElem?_eq_getElem hk] at hat
    refine ⟨_, ancestor_bars root.children q, hat, ?_⟩
    rw [draw_tree_getElem root k q hq]
    simp [diagram_line, label_at, hat]

/-- C6: the prefix printed before the connector on the line of a node of depth
`d` (its path has `d + 1` indices; its ancestors are the nodes at the proper
non-empty prefixes of the path, outermost first) is the concatenation over the
ancestors of three spaces for an ancestor that is the final element of its
sequence and of a bar with two spaces for one that is not; it has `3 * d`
characters and is empty for the children of the root. -/
theorem lead_from_ancestor_chain (root : tree) (k : Nat) (q : List Nat)
    (h : (preorder_paths root.children)[k]? = some q) :
    ∃ (t : tree) (pfx : List Char), node_at root.children q = some t ∧
      (draw_tree root)[k + 1]? =
        some (pfx ++ (if is_final root.children q then ['└'] else ['├']) ++ ['─', ' ']
          ++ t.value) ∧
      pfx = ((List.range (q.length - 1)).map
        (fun j => if is_final root.children (q.take (j + 1)) then [' ', ' ', ' ']
          else ['│', ' ', ' '])).flatten ∧
      pfx.length = 3 * (q.length - 1) ∧
      (q.length = 1 → pfx = []) := by
  have hat := preorder_paths_node_at _ k q h
  have hk : k < (forest_nodes root.children).length := by
    rw [← preorder_paths_length]
    rcases Nat.lt_or_ge k (preorder_paths root.children).length with h' | h'
    · exact h'
    · rw [List.getElem?_eq_none h'] at h; cases h
  rw [List.getElem?_eq_getElem hk] at hat
  refine ⟨_, ancestor_bars root.children q, hat, ?_, rfl, ?_, ?_⟩
  · rw [draw_tree_getElem root k q h]
    simp [diagram_line, label_at, hat]
  · simp only [ancestor_bars, List.length_flatten, List.map_map]
    have : ∀ (l : List Nat) (f : Nat → List Char), (∀ j, (f j).length = 3) →
        (l.map (List.length ∘ f)).sum = 3 * l.length := by
      intro l f hf
      induction l with
      | nil => rfl
      | cons a l ih => simp [hf, ih]; omega
    rw [this]
    · simp
    · intro j; split <;> rfl
  · intro hq
    simp [ancestor_bars, hq]

/-- Witness for C6: the node `B` under `A` in the tree of `A`, tab `B`, `C`. -/
theorem lead_from_ancestor_chain_witness :
    (preorder_paths (tree_from_text example_text).children)[1]? = some [0, 0] ∧
    ∃ (t : tree) (pfx : List Char),
      node_at (tree_from_text example_text).children [0, 0] = some t ∧
      (draw_tree (tree_from_text example_text))[1 + 1]? =
        some (pfx ++ (if is_final (tree_from_text example_text).children [0, 0] then ['└']
          else ['├']) ++ ['─', ' '] ++ t.value) ∧
      pfx = ((List.range ([0, 0].length - 1)).map
        (fun j => if is_final (tree_from_text example_text).children ([0, 0].take (j + 1))
          then [' ', ' ', ' '] else ['│', ' ', ' '])).flatten ∧
      pfx.length = 3 * ([0, 0].length - 1) ∧
      ([0, 0].length = 1 → pfx = []) :=
  ⟨by decide, lead_from_ancestor_chain (tree_from_text example_text) 1 [0, 0] (by decide)⟩

/-- C7: `draw_tree` prints the root's label on the first line and then one line
per non-root node in pre-order, children in stored order: the output has one
line more than there are non-root nodes and the `k`-th diagram line ends with
the label of the `k`-th node of the pre-order traversal. -/
theorem output_is_root_then_preorder (root : tree) :
    (draw_tree root)[0]? = some root.value ∧
    (draw_tree root).length = 1 + (forest_nodes root.children).length ∧
    ∀ k v, (preorder_labels root.children)[k]? = some v →
      ∃ (line : List Char), (draw_tree root)[k + 1]? = some line ∧ v <:+ line := by
  refine ⟨by simp [draw_tree], ?_, ?_⟩
  · simp [draw_tree, draw_eq, preorder_paths_length]
    omega
  · intro k v hv
    simp only [preorder_labels, List.getElem?_map] at hv
    cases hn : (forest_nodes root.children)[k]? with
    | none => rw [hn] at hv; cases hv
    | some t =>
      rw [hn] at hv
      simp only [Option.map_some', Option.some.injEq] at hv
      have hk : k < (preorder_paths root.children).length := by
        rw [preorder_paths_length]
        rcases Nat.lt_or_ge k (forest_nodes root.children).length with h' | h'
        · exact h'
        · rw [List.getElem?_eq_none h'] at hn; cases hn
      have hq := List.getElem?_eq_getElem hk
      have hat := preorder_paths_node_at _ k _ hq
      rw [hn] at hat
      refine ⟨_, draw_tree_getElem root k _ hq, ?_⟩
      simp only [diagram_line, label_at, hat, Option.map_some', Option.getD_some, hv]
      exact List.suffix_append _ _

/-- The specification's example, end to end: the text `A`, tab `B`, `C`. -/
theorem example_text_output :
    draw_tree (tree_from_text example_text) =
      [['.'], ['├', '─', ' ', 'A'], ['│', ' ', ' ', '└', '─', ' ', 'B'], ['└', '─', ' ', 'C']] := by
  decide

/-! ## The parser: last line, trailing newline, splitting -/

theorem input_lines_newline (cs : List Char) :
    input_lines ('\n' :: cs) = [] :: input_lines cs := by
  simp [input_lines]

theorem input_lines_other (c : Char) (cs : List Char) (hc : c ≠ '\n') :
    input_lines (c :: cs) =
      match input_lines cs with
      | [] => [[c]]
      | seg :: segs => (c :: seg) :: segs := by
  simp [input_lines, hc]

/-- A newline appended to a text adds at most one empty input line. -/
theorem input_lines_append_newline (s : List Char) :
    input_lines (s ++ ['\n']) = input_lines s ∨
      input_lines (s ++ ['\n']) = input_lines s ++ [[]] := by
  induction s with
  | nil => right; simp [input_lines]
  | cons c cs ih =>
    by_cases hc : c = '\n'
    · subst hc
      rw [List.cons_append, input_lines_newline, input_lines_newline]
      rcases ih with h | h
      · left; rw [h]
      · right; rw [h]; rfl
    · rw [List.cons_append, input_lines_other _ _ hc, input_lines_other _ _ hc]
      rcases ih with h | h
      · left; rw [h]
      · rw [h]
        cases hcs : input_lines cs with
        | nil => left; rfl
        | cons seg segs => right; rfl

theorem nonempty_lines_append_newline (s : List Char) :
    nonempty_lines (s ++ ['\n']) = nonempty_lines s := by
  unfold nonempty_lines
  rcases input_lines_append_newline s with h | h
  · rw [h]
  · rw [h, List.filter_append]; simp

theorem input_lines_ne_nil (s : List Char) (h : s ≠ []) : input_lines s ≠ [] := by
  cases s with
  | nil => exact absurd rfl h
  | cons c cs =>
    simp only [input_lines]
    split
    · simp
    · split <;> simp

/-- The input lines of a text that follows a newline are listed after those of
the text up to that newline. -/
theorem input_lines_append (a b : List Char) (ha : a = [] ∨ a.getLast? = some '\n') :
    input_lines (a ++ b) = input_lines a ++ input_lines b := by
  induction a with
  | nil => simp [input_lines]
  | cons c cs ih =>
    have hlast : cs = [] ∨ cs.getLast? = some '\n' := by
      rcases ha with h | h
      · cases h
      · cases cs with
        | nil => left; rfl
        | cons d ds => right; simpa [List.getLast?_cons_cons] using h
    by_cases hc : c = '\n'
    · subst hc
      rw [List.cons_append, input_lines_newline, input_lines_newline, ih hlast]
      rfl
    · have hne : cs ≠ [] := by
        rintro rfl
        rcases ha with h | h
        · cases h
        · simp at h; exact hc h
      rw [List.cons_append, input_lines_other _ _ hc, input_lines_other _ _ hc, ih hlast]
      cases hcs : input_lines cs with
      | nil => exact absurd hcs (input_lines_ne_nil cs hne)
      | cons seg segs => rfl

theorem input_lines_single (seg : List Char) (hne : seg ≠ []) (hnl : '\n' ∉ seg) :
    input_lines seg = [seg] := by
  have htake : seg.takeWhile (· != '\n') = seg := by
    rw [List.takeWhile_eq_self_iff]
    intro c hc
    have : c ≠ '\n' := fun h => hnl (h ▸ hc)
    simpa using this
  have hdrop : seg.dropWhile (· != '\n') = [] := by
    rw [List.dropWhile_eq_nil_iff]
    intro c hc
    have : c ≠ '\n' := fun h => hnl (h ▸ hc)
    simpa using this
  have := input_lines_token seg (by rw [htake]; exact hne)
  rw [htake, hdrop] at this
  simpa [input_lines] using this

/-- Every text is what precedes its last newline, up to and including it,
followed by the segment after that newline. -/
theorem last_segment_exists (t : List Char) :
    ∃ pre seg, t = pre ++ seg ∧ '\n' ∉ seg ∧ (pre = [] ∨ pre.getLast? = some '\n') := by
  induction t with
  | nil => exact ⟨[], [], rfl, by simp, Or.inl rfl⟩
  | cons c cs ih =>
    obtain ⟨pre, seg, hcs, hseg, hpre⟩ := ih
    cases pre with
    | nil =>
      by_cases hc : c = '\n'
      · exact ⟨[c], seg, by simp [hcs], hseg, Or.inr (by simp [hc])⟩
      · refine ⟨[], c :: seg, by simp [hcs], ?_, Or.inl rfl⟩
        simp only [List.mem_cons, not_or]
        exact ⟨fun h => hc h.symm, hseg⟩
    | cons d ds =>
      refine ⟨c :: d :: ds, seg, by simp [hcs], hseg, Or.inr ?_⟩
      rcases hpre with h | h
      · cases h
      · simpa [List.getLast?_cons_cons] using h

/-- C11: a non-empty text that does not end in a newline is `pre ++ seg`, where
`seg` is the segment after its last newline (`pre` is empty or ends in a
newline, `seg` holds no newline); `seg` is not empty and the last Line the
parser yields is the Line of `seg`; parsing the text followed by one newline
gives the same Lines; parsing the empty text gives no Line. -/
theorem last_line_is_kept (t : List Char) (hne : t ≠ []) (hend : t.getLast? ≠ some '\n') :
    (∃ pre seg, t = pre ++ seg ∧ '\n' ∉ seg ∧ (pre = [] ∨ pre.getLast? = some '\n') ∧
      seg ≠ [] ∧ (parse_lines t).getLast? = some (parse_line seg)) ∧
    parse_lines (t ++ ['\n']) = parse_lines t ∧
    parse_lines [] = [] := by
  refine ⟨?_, ?_, rfl⟩
  · obtain ⟨pre, seg, ht, hseg, hpre⟩ := last_segment_exists t
    have hsegne : seg ≠ [] := by
      rintro rfl
      simp only [List.append_nil] at ht
      subst ht
      rcases hpre with h | h
      · exact hne h
      · exact hend h
    refine ⟨pre, seg, ht, hseg, hpre, hsegne, ?_⟩
    rw [parse_lines_eq, ht]
    unfold nonempty_lines
    rw [input_lines_append pre seg hpre, input_lines_single seg hsegne hseg,
      List.filter_append, List.map_append]
    have : List.filter (fun s : List Char => !s.isEmpty) [seg] = [seg] := by
      cases seg with
      | nil => exact absurd rfl hsegne
      | cons _ _ => rfl
    rw [this]
    simp
  · rw [parse_lines_eq, parse_lines_eq, nonempty_lines_append_newline]

/-- Witness for C11: the text `A`, newline, `B`. -/
theorem last_line_is_kept_witness :
    parse_lines (['A', '\n', 'B'] ++ ['\n']) = parse_lines ['A', '\n', 'B'] ∧
    (parse_lines ['A', '\n', 'B']).getLast? = some (parse_line ['B']) :=
  ⟨(last_line_is_kept ['A', '\n', 'B'] (by decide) (by decide)).2.1, by decide⟩

/-- The text cut at every newline is the list of its input lines, followed by
an empty segment when the text is empty or ends in a newline. -/
theorem splitOn_input_lines (s : List Char) :
    s.splitOn '\n' = input_lines s ∨ s.splitOn '\n' = input_lines s ++ [[]] := by
  induction s with
  | nil => right; rfl
  | cons c cs ih =>
    simp only [List.splitOn] at ih ⊢
    rw [List.splitOnP_cons]
    by_cases hc : c = '\n'
    · subst hc
      simp only [beq_self_eq_true, if_true]
      rw [input_lines_newline]
      rcases ih with h | h
      · left; rw [h]
      · right; rw [h]; rfl
    · have hc' : (c == '\n') = false := by simpa using hc
      simp only [hc']
      rw [input_lines_other _ _ hc]
      rcases ih with h | h
      · rw [h]
        cases hcs : input_lines cs with
        | nil =>
          rw [hcs] at h
          exact absurd h (List.splitOnP_ne_nil _ _)
        | cons seg segs => left; rfl
      · rw [h]
        cases hcs : input_lines cs with
        | nil => left; rfl
        | cons seg segs => right; rfl

/-- C17: the Lines handed to the builder are the segments of the text between
newlines, the empty segments dropped, each mapped to its indent and label, in
order; so the tree gets one node per segment that holds a character. -/
theorem parsed_lines_are_nonempty_segments (text : List Char) :
    parse_lines text =
      ((text.splitOn '\n').filter (fun seg => !seg.isEmpty)).map parse_line ∧
    (forest_nodes (tree_from_text text).children).length =
      ((text.splitOn '\n').filter (fun seg => !seg.isEmpty)).length := by
  have h : (text.splitOn '\n').filter (fun seg => !seg.isEmpty) = nonempty_lines text := by
    unfold nonempty_lines
    rcases splitOn_input_lines text with h | h
    · rw [h]
    · rw [h, List.filter_append]; simp
  rw [h]
  refine ⟨parse_lines_eq text, ?_⟩
  simp only [tree_from_text, tree.children]
  rw [forest_nodes_length, parse_lines_eq, List.length_map]

/-! ## Spaces, tabs and positions -/

theorem even_space_count_nil (i : Nat) : even_space_count i [] = 0 := rfl

theorem even_space_count_cons (i : Nat) (c : Char) (cs : List Char) :
    even_space_count i (c :: cs) =
      (if c = ' ' ∧ i % 2 = 0 then 1 else 0) + even_space_count (i + 1) cs := by
  simp only [even_space_count, List.enumFrom, List.filter_cons]
  by_cases h : c = ' ' ∧ i % 2 = 0
  · simp [h]; omega
  · rw [if_neg h]
    have : (c == ' ' && i % 2 == 0) = false := by
      simpa [Bool.and_eq_false_iff] using h
    simp [this]

theorem even_space_count_append (a b : List Char) :
    ∀ i, even_space_count i (a ++ b) =
      even_space_count i a + even_space_count (i + a.length) b := by
  induction a with
  | nil => intro i; simp [even_space_count_nil]
  | cons c cs ih =>
    intro i
    rw [List.cons_append, even_space_count_cons, even_space_count_cons, ih]
    simp only [List.length_cons]
    have : i + 1 + cs.length = i + (cs.length + 1) := by omega
    rw [this]
    omega

/-- Only the parity of the starting position matters. -/
theorem even_space_count_add_two (r : List Char) :
    ∀ i, even_space_count (i + 2) r = even_space_count i r := by
  induction r with
  | nil => intro i; rfl
  | cons c cs ih =>
    intro i
    rw [even_space_count_cons, even_space_count_cons]
    have h1 : (i + 2) % 2 = i % 2 := by omega
    have h2 : i + 2 + 1 = (i + 1) + 2 := by omega
    rw [h1, h2, ih]

theorem leading_run_append (pre rest : List Char) (hpre : ∀ c ∈ pre, c = ' ' ∨ c = '\t') :
    leading_run (pre ++ rest) = pre ++ leading_run rest := by
  induction pre with
  | nil => rfl
  | cons c cs ih =>
    have hc : (c == ' ' || c == '\t') = true := by
      simpa using hpre c (by simp)
    have := ih (fun d hd => hpre d (by simp [hd]))
    simp only [leading_run] at this ⊢
    rw [List.cons_append, List.takeWhile_cons, hc, if_pos rfl, this, List.cons_append]

theorem line_indent_eq (line : List Char) :
    line_indent line = (run_units (leading_run line) : Int) := by
  have := indent_loop_eq line 0 0
  simpa [line_indent, run_units] using this

/-- The indents of a line before and after two adjacent spaces of its leading
run are replaced by one tab. -/
theorem indent_pair_and_tab (pre post : List Char) (hpre : ∀ c ∈ pre, c = ' ' ∨ c = '\t') :
    line_indent (pre ++ [' ', ' '] ++ post) =
      ((pre.count '\t' + even_space_count 0 pre + 1 + (leading_run post).count '\t' +
        even_space_count pre.length (leading_run post) : Nat) : Int) ∧
    line_indent (pre ++ ['\t'] ++ post) =
      ((pre.count '\t' + even_space_count 0 pre + 1 + (leading_run post).count '\t' +
        even_space_count (pre.length + 1) (leading_run post) : Nat) : Int) := by
  constructor
  · rw [line_indent_eq, List.append_assoc, leading_run_append _ _ hpre,
      leading_run_append [' ', ' '] post (by simp)]
    simp only [run_units, List.count_append, even_space_count_append, even_space_count_cons,
      even_space_count_nil, Nat.zero_add, List.length_cons, List.length_nil]
    rw [even_space_count_add_two]
    have hcount : List.count '\t' [' ', ' '] = 0 := by decide
    rw [hcount]
    rcases Nat.mod_two_eq_zero_or_one pre.length with h | h
    · have h' : (pre.length + 1) % 2 = 1 := by omega
      simp [h, h']; omega
    · have h' : (pre.length + 1) % 2 = 0 := by omega
      simp [h, h']; omega
  · rw [line_indent_eq, List.append_assoc, leading_run_append _ _ hpre,
      leading_run_append ['\t'] post (by simp)]
    simp only [run_units, List.count_append, even_space_count_append, even_space_count_cons,
      even_space_count_nil, Nat.zero_add, List.length_cons, List.length_nil]
    have hcount : List.count '\t' ['\t'] = 1 := by decide
    rw [hcount]
    simp; omega

/-- Counterexample to C15 as stated: three leading spaces give indent 2, and
with the first two replaced by a tab the indent is 1. -/
theorem pair_of_spaces_is_not_a_tab :
    (∀ c ∈ ([] : List Char), c = ' ' ∨ c = '\t') ∧
    (parse_line ([] ++ [' ', ' '] ++ [' ', 'x'])).indent = 2 ∧
    (parse_line ([] ++ ['\t'] ++ [' ', 'x'])).indent = 1 ∧
    (parse_line ([] ++ ['\t'] ++ [' ', 'x'])).indent ≠
      (parse_line ([] ++ [' ', ' '] ++ [' ', 'x'])).indent := by
  decide

/-- C15 (amended): replacing two adjacent spaces of the leading run by one tab
leaves the indent unchanged exactly when the spaces of the run that follow the
pair count the same from a position of either parity, that is when as many of
them stand at even as at odd positions; in particular when no space follows
the pair in the run. Two leading spaces give indent 1, like one tab. -/
theorem pair_of_spaces_and_tab (pre post : List Char)
    (hpre : ∀ c ∈ pre, c = ' ' ∨ c = '\t') :
    ((parse_line (pre ++ ['\t'] ++ post)).indent =
        (parse_line (pre ++ [' ', ' '] ++ post)).indent ↔
      even_space_count (pre.length + 1) (leading_run post) =
        even_space_count pre.length (leading_run post)) ∧
    (' ' ∉ leading_run post →
      (parse_line (pre ++ ['\t'] ++ post)).indent =
        (parse_line (pre ++ [' ', ' '] ++ post)).indent) ∧
    (parse_line [' ', ' ']).indent = 1 ∧ (parse_line ['\t']).indent = 1 := by
  obtain ⟨h1, h2⟩ := indent_pair_and_tab pre post hpre
  have hiff : (parse_line (pre ++ ['\t'] ++ post)).indent =
        (parse_line (pre ++ [' ', ' '] ++ post)).indent ↔
      even_space_count (pre.length + 1) (leading_run post) =
        even_space_count pre.length (leading_run post) := by
    simp only [parse_line]
    rw [h1, h2]
    constructor
    · intro h; have := Int.ofNat.inj h; omega
    · intro h; rw [h]
  refine ⟨hiff, ?_, by decide, by decide⟩
  intro hno
  rw [hiff]
  have : ∀ (r : List Char), ' ' ∉ r → ∀ i, even_space_count i r = 0 := by
    intro r
    induction r with
    | nil => intro _ i; rfl
    | cons c cs ih =>
      intro hr i
      simp only [List.mem_cons, not_or] at hr
      rw [even_space_count_cons, ih hr.2, if_neg (fun h => hr.1 h.1.symm)]
  rw [this _ hno, this _ hno]

/-- Witness for C15 (amended): the pair of spaces after a tab, before `x`. -/
theorem pair_of_spaces_and_tab_witness :
    (∀ c ∈ ['\t'], c = ' ' ∨ c = '\t') ∧
    (parse_line (['\t'] ++ ['\t'] ++ ['x'])).indent =
      (parse_line (['\t'] ++ [' ', ' '] ++ ['x'])).indent :=
  ⟨by simp, (pair_of_spaces_and_tab ['\t'] ['x'] (by simp)).2.1 (by decide)⟩

/-! ## Rebuilding a forest from its depths -/

/-- Every Line of a serialised forest is at least as deep as the forest. -/
theorem serialise_indent_ge :
    (∀ (t : tree) (d : Nat), ∀ l ∈ t.serialise d, (d : Int) ≤ l.indent) ∧
    (∀ (ts : List tree) (d : Nat), ∀ l ∈ forest_serialise d ts, (d : Int) ≤ l.indent) := by
  apply tree_forest_induction
  · intro v cs ih d l hl
    simp only [tree.serialise, List.mem_cons] at hl
    rcases hl with rfl | hl
    · exact le_refl _
    · have := ih (d + 1) l hl
      push_cast at this
      omega
  · intro d l hl; simp [forest_serialise] at hl
  · intro t ts iht ihts d l hl
    simp only [forest_serialise, List.mem_append] at hl
    rcases hl with hl | hl
    · exact iht d l hl
    · exact ihts d l hl

/-- The first Line of a serialised forest is at the depth of the forest. -/
theorem serialise_head (ts : List tree) (d : Nat) (b : line_pair)
    (h : (forest_serialise d ts)[0]? = some b) : b.indent = d := by
  cases ts with
  | nil => simp [forest_serialise] at h
  | cons t ts =>
    cases t with
    | node v cs =>
      simp only [forest_serialise, tree.serialise, List.cons_append, List.getElem?_cons_zero,
        Option.some.injEq] at h
      rw [← h]

/-- The builder inverts the serialisation by depth, for every forest. -/
theorem forest_of_serialise :
    (∀ (t : tree) (d : Nat) (ts : List tree),
      forest_from_line_indents (t.serialise d ++ forest_serialise d ts) =
        t :: forest_from_line_indents (forest_serialise d ts)) ∧
    (∀ (ts : List tree) (d : Nat), forest_from_line_indents (forest_serialise d ts) = ts) := by
  apply tree_forest_induction
  · intro v cs ih d ts
    simp only [tree.serialise, List.cons_append]
    rw [forest_cons]
    have hall : lookahead (d : Int) (forest_serialise (d + 1) cs) =
        (forest_serialise (d + 1) cs).length := by
      apply lookahead_all
      intro l hl
      have := serialise_indent_ge.2 cs (d + 1) l hl
      push_cast at this
      omega
    have hla : lookahead (d : Int) (forest_serialise (d + 1) cs ++ forest_serialise d ts) =
        (forest_serialise (d + 1) cs).length := by
      rw [lookahead_append, hall]
      intro b hb
      rw [serialise_head ts d b hb]
    simp only [hla, List.take_left', List.drop_left', ih (d + 1)]
  · intro d; rfl
  · intro t ts iht ihts d
    simp only [forest_serialise]
    rw [iht d ts, ihts d]

/-- The depth that the serialisation records is the depth read off the path. -/
theorem serialise_depth :
    (∀ (t : tree) (d : Nat),
      (t.serialise d).map line_pair.indent = t.paths.map (fun r => ((d + r.length : Nat) : Int))) ∧
    (∀ (ts : List tree) (d i : Nat),
      (forest_serialise d ts).map line_pair.indent =
        (forest_paths i ts).map (fun q => ((d + (q.length - 1) : Nat) : Int))) := by
  apply tree_forest_induction
  · intro v cs ih d
    simp only [tree.serialise, tree.paths, List.map_cons, List.length_nil, Nat.add_zero]
    rw [ih (d + 1) 0]
    congr 1
    apply List.map_congr_left
    intro q hq
    have := List.length_pos.mpr (forest_paths_ne_nil cs 0 q hq)
    congr 1
    omega
  · intro d i; rfl
  · intro t ts iht ihts d i
    simp only [forest_serialise, forest_paths, List.map_append, List.map_map]
    rw [iht d, ihts d (i + 1)]
    congr 1

/-- The labels that the serialisation records are the labels in pre-order. -/
theorem serialise_labels :
    (∀ (t : tree) (d : Nat), (t.serialise d).map line_pair.str = t.nodes.map tree.value) ∧
    (∀ (ts : List tree) (d : Nat),
      (forest_serialise d ts).map line_pair.str = (forest_nodes ts).map tree.value) := by
  apply tree_forest_induction
  · intro v cs ih d
    simp only [tree.serialise, tree.nodes, List.map_cons, ih (d + 1), tree.value]
  · intro d; rfl
  · intro t ts iht ihts d
    simp only [forest_serialise, forest_nodes, List.map_append, iht d, ihts d]

/-- C12: serialising the built forest by a pre-order walk into Lines (depth of
the node, label of the node), top-level nodes at depth 0, and building again
gives the same forest; the recorded depth of a node is the length of its path
less one, and the labels are those of the nodes in pre-order. -/
theorem rebuild_from_depths (L : List line_pair) :
    forest_from_line_indents (forest_serialise 0 (forest_from_line_indents L)) =
      forest_from_line_indents L ∧
    (forest_serialise 0 (forest_from_line_indents L)).map line_pair.indent =
      (preorder_paths (forest_from_line_indents L)).map (fun q => ((q.length - 1 : Nat) : Int)) ∧
    (forest_serialise 0 (forest_from_line_indents L)).map line_pair.str =
      preorder_labels (forest_from_line_indents L) := by
  refine ⟨forest_of_serialise.2 _ 0, ?_, serialise_labels.2 _ 0⟩
  have := serialise_depth.2 (forest_from_line_indents L) 0 0
  simpa [preorder_paths] using this

/-! ## Only the order of the indents matters -/

theorem lookahead_map (f : Int → Int) (hf : StrictMono f) (k : Int) (ls : List line_pair) :
    lookahead (f k) (ls.map (fun l => ⟨f l.indent, l.str⟩)) = lookahead k ls := by
  induction ls with
  | nil => rfl
  | cons a as ih =>
    simp only [List.map_cons, lookahead, ih]
    have : f a.indent > f k ↔ a.indent > k := hf.lt_iff_lt
    simp only [this]

/-- C18: the built forest depends only on the relative order of the indents:
replacing every indent `k` by `f k`, for a strictly increasing `f`, gives the
same forest. -/
theorem forest_depends_on_order_only (f : Int → Int) (hf : StrictMono f)
    (L : List line_pair) :
    forest_from_line_indents (L.map (fun l => ⟨f l.indent, l.str⟩)) =
      forest_from_line_indents L := by
  induction L using forest_induction with
  | hnil => rfl
  | hcons cur rest ihA ihB =>
    rw [List.map_cons, forest_cons, forest_cons]
    simp only [lookahead_map f hf, ← List.map_take, ← List.map_drop, ihA, ihB]

/-- Witness for C18: adding 2 to every indent of `A`(0), `B`(1), `C`(0). -/
theorem forest_depends_on_order_only_witness :
    StrictMono (fun k : Int => k + 2) ∧
    forest_from_line_indents (example_lines.map (fun l => ⟨l.indent + 2, l.str⟩)) =
      forest_from_line_indents example_lines :=
  ⟨fun a b h => by simpa using h,
    forest_depends_on_order_only (fun k => k + 2) (fun a b h => by simpa using h) example_lines⟩

/-! ## Flat sequences and staircases -/

theorem forest_same_indent (k : Int) (L : List line_pair) (hsame : ∀ l ∈ L, l.indent = k) :
    forest_from_line_indents L = L.map (fun l => tree.node l.str []) := by
  induction L with
  | nil => rfl
  | cons cur rest ih =>
    have hcur : cur.indent = k := hsame cur (by simp)
    have hn : lookahead cur.indent rest = 0 := by
      cases rest with
      | nil => rfl
      | cons a as =>
        have ha : a.indent = k := hsame a (by simp)
        simp only [lookahead]
        rw [if_neg (by omega)]
    rw [forest_cons, hn, List.take_zero, List.drop_zero, forest_nil,
      ih (fun l hl => hsame l (by simp [hl]))]
    rfl

/-- What `draw` prints for childless siblings, from index `i` of `count` on. -/
theorem draw_from_leaves (ind : List Char) (ls : List line_pair) (hne : ls ≠ []) :
    ∀ (count i : Nat), i + ls.length = count →
      draw_from ind count i (ls.map (fun l => tree.node l.str [])) =
        ls.dropLast.map (fun l => ind ++ ['├', '─', ' '] ++ l.str)
          ++ [ind ++ ['└', '─', ' '] ++ (ls.getLast hne).str] := by
  induction ls with
  | nil => exact absurd rfl hne
  | cons a as ih =>
    intro count i hcount
    cases as with
    | nil =>
      simp only [List.length_cons, List.length_nil] at hcount
      have : (i == count - 1) = true := by simp; omega
      simp [draw_from, draw_node, this, connector]
    | cons b bs =>
      simp only [List.length_cons] at hcount
      have hlast : (i == count - 1) = false := by simp; omega
      have ih' := ih (by simp) count (i + 1) (by simp only [List.length_cons]; omega)
      rw [List.map_cons, draw_from, ih', hlast, List.dropLast_cons₂, List.map_cons,
        List.getLast_cons_cons]
      simp [draw_node, draw_from, connector]

/-- C13: Lines that all have the same indent give as many childless nodes
directly under the root, in input order, and the output is the line `.`, then
`├─ label` for every line but the last and `└─ label` for the last line. -/
theorem same_indent_gives_flat_tree (L : List line_pair) (k : Int) (hne : L ≠ [])
    (hsame : ∀ l ∈ L, l.indent = k) :
    forest_from_line_indents L = L.map (fun l => tree.node l.str []) ∧
    draw_tree (tree.node ['.'] (forest_from_line_indents L)) =
      ['.'] :: (L.dropLast.map (fun l => ['├', '─', ' '] ++ l.str)
        ++ [['└', '─', ' '] ++ (L.getLast hne).str]) := by
  have h := forest_same_indent k L hsame
  refine ⟨h, ?_⟩
  simp only [draw_tree, tree.value, tree.children, draw, h, List.length_map]
  rw [draw_from_leaves [] L hne L.length 0 (by simp)]
  simp

/-- Witness for C13: the two lines `A`, `B` at indent 0. -/
theorem same_indent_gives_flat_tree_witness :
    draw_tree (tree.node ['.'] (forest_from_line_indents [⟨0, ['A']⟩, ⟨0, ['B']⟩])) =
      [['.'], ['├', '─', ' ', 'A'], ['└', '─', ' ', 'B']] :=
  (same_indent_gives_flat_tree [⟨0, ['A']⟩, ⟨0, ['B']⟩] 0 (by simp) (by simp)).2

theorem forest_increasing (L : List line_pair)
    (hinc : L.Pairwise (fun a b => a.indent < b.indent)) :
    forest_from_line_indents L = chain_of L := by
  induction L with
  | nil => rfl
  | cons cur rest ih =>
    rw [List.pairwise_cons] at hinc
    have hn : lookahead cur.indent rest = rest.length := lookahead_all _ _ hinc.1
    rw [forest_cons, hn, List.take_length, List.drop_length, forest_nil, ih hinc.2]
    rfl

theorem chain_of_length_le (L : List line_pair) : (chain_of L).length ≤ 1 := by
  cases L <;> simp [chain_of]

/-- What `draw` prints for a chain: one line per node, each three spaces
further in than the one before. -/
theorem draw_chain (L : List line_pair) :
    ∀ (ind : List Char),
      (draw ind (chain_of L)).length = L.length ∧
      ∀ i l, L[i]? = some l →
        (draw ind (chain_of L))[i]? =
          some (ind ++ List.replicate (3 * i) ' ' ++ ['└', '─', ' '] ++ l.str) := by
  induction L with
  | nil => intro ind; exact ⟨rfl, fun i l h => by simp at h⟩
  | cons a as ih =>
    intro ind
    have hdraw : draw ind (chain_of (a :: as)) =
        (ind ++ ['└', '─', ' '] ++ a.str) :: draw (ind ++ [' ', ' ', ' ']) (chain_of as) := by
      simp [draw, chain_of, draw_from, draw_node, connector, branch_str]
    obtain ⟨hlen, hget⟩ := ih (ind ++ [' ', ' ', ' '])
    rw [hdraw]
    refine ⟨by simp [hlen], ?_⟩
    intro i l hl
    cases i with
    | zero =>
      simp only [List.getElem?_cons_zero, Option.some.injEq] at hl
      subst hl
      simp
    | succ i =>
      simp only [List.getElem?_cons_succ] at hl ⊢
      rw [hget i l hl]
      have : List.replicate (3 * (i + 1)) ' ' = [' ', ' ', ' '] ++ List.replicate (3 * i) ' ' := by
        rw [show 3 * (i + 1) = 3 * i + 1 + 1 + 1 by omega]
        simp [List.replicate_succ]
      rw [this]
      simp

/-- C14: Lines with strictly increasing indents, by whatever amounts, give a
single chain: the node of each line is the only child of the node of the line
before, no other node is made, and the `i`-th diagram line is `3 * i` spaces,
then `└─ ` and the label of line `i`. -/
theorem increasing_indents_give_chain (L : List line_pair)
    (hinc : L.Pairwise (fun a b => a.indent < b.indent)) :
    forest_from_line_indents L = chain_of L ∧
    (draw_tree (tree.node ['.'] (forest_from_line_indents L))).length = 1 + L.length ∧
    (draw_tree (tree.node ['.'] (forest_from_line_indents L)))[0]? = some ['.'] ∧
    ∀ i l, L[i]? = some l →
      (draw_tree (tree.node ['.'] (forest_from_line_indents L)))[i + 1]? =
        some (List.replicate (3 * i) ' ' ++ ['└', '─', ' '] ++ l.str) := by
  have h := forest_increasing L hinc
  obtain ⟨hlen, hget⟩ := draw_chain L []
  refine ⟨h, ?_, ?_, ?_⟩
  · simp only [draw_tree, tree.children, h, List.length_cons, hlen]; omega
  · simp [draw_tree, tree.value]
  · intro i l hl
    simp only [draw_tree, tree.children, h, List.getElem?_cons_succ]
    rw [hget i l hl]
    simp

/-- Witness for C14: `A` at indent 0, `B` at indent 3 (a jump of three). -/
theorem increasing_indents_give_chain_witness :
    [line_pair.mk 0 ['A'], ⟨3, ['B']⟩].Pairwise (fun a b => a.indent < b.indent) ∧
    forest_from_line_indents [⟨0, ['A']⟩, ⟨3, ['B']⟩] =
      [tree.node ['A'] [tree.node ['B'] []]] ∧
    draw_tree (tree.node ['.'] (forest_from_line_indents [⟨0, ['A']⟩, ⟨3, ['B']⟩])) =
      [['.'], ['└', '─', ' ', 'A'], [' ', ' ', ' ', '└', '─', ' ', 'B']] :=
  ⟨by simp, (increasing_indents_give_chain [⟨0, ['A']⟩, ⟨3, ['B']⟩] (by simp)).1, by decide⟩

/-! ## Counting the lookahead tests -/

theorem lookahead_tests_le (k : Int) (ls : List line_pair) :
    lookahead_tests k ls ≤ ls.length ∧ lookahead_tests k ls ≤ lookahead k ls + 1 := by
  induction ls with
  | nil => simp [lookahead_tests, lookahead]
  | cons a as ih =>
    simp only [lookahead_tests, lookahead, List.length_cons]
    split
    · omega
    · omega

theorem lookahead_tests_all (k : Int) (ls : List line_pair) (h : ∀ l ∈ ls, k < l.indent) :
    lookahead_tests k ls = ls.length := by
  induction ls with
  | nil => rfl
  | cons a as ih =>
    simp only [lookahead_tests]
    rw [if_pos (by simpa using h a (by simp)), ih (fun l hl => h l (by simp [hl]))]
    rfl

/-- The count does not depend on the bound on the nesting once it is at least
the number of lines. -/
theorem forest_tests_fuel (f1 : Nat) :
    ∀ (f2 : Nat) (ls : List line_pair), ls.length ≤ f1 → ls.length ≤ f2 →
      forest_tests f1 ls = forest_tests f2 ls := by
  induction f1 with
  | zero =>
    intro f2 ls h1 _
    have : ls = [] := List.length_eq_zero.mp (Nat.le_zero.mp h1)
    subst this
    cases f2 <;> simp [forest_tests]
  | succ f1 ih =>
    intro f2 ls h1 h2
    cases ls with
    | nil => cases f2 <;> simp [forest_tests]
    | cons cur rest =>
      cases f2 with
      | zero => simp at h2
      | succ f2 =>
        simp only [List.length_cons, Nat.add_le_add_iff_right] at h1 h2
        simp only [forest_tests]
        have hn := lookahead_le cur.indent rest
        rw [ih f2 (rest.take _) (by simp; omega) (by simp; omega),
            ih f2 (rest.drop _) (by simp; omega) (by simp; omega)]

/-- The tests of one iteration of the outer loop and of what it starts. -/
theorem comparisons_cons (cur : line_pair) (rest : List line_pair) :
    comparisons (cur :: rest) =
      lookahead_tests cur.indent rest
        + comparisons (rest.take (lookahead cur.indent rest))
        + comparisons (rest.drop (lookahead cur.indent rest)) := by
  have hn := lookahead_le cur.indent rest
  simp only [comparisons, List.length_cons, forest_tests]
  rw [forest_tests_fuel rest.length _ (rest.take _) (by simp) (le_refl _),
      forest_tests_fuel rest.length _ (rest.drop _) (by simp) (le_refl _)]

theorem comparisons_nil : comparisons [] = 0 := rfl

/-- Lines with strictly increasing indents are compared `n (n - 1) / 2` times. -/
theorem comparisons_increasing (L : List line_pair)
    (hinc : L.Pairwise (fun a b => a.indent < b.indent)) :
    2 * comparisons L + L.length = L.length * L.length := by
  induction L with
  | nil => rfl
  | cons cur rest ih =>
    rw [List.pairwise_cons] at hinc
    have hn : lookahead cur.indent rest = rest.length := lookahead_all _ _ hinc.1
    have ht : lookahead_tests cur.indent rest = rest.length := lookahead_tests_all _ _ hinc.1
    have := ih hinc.2
    rw [comparisons_cons, hn, ht, List.take_length, List.drop_length, comparisons_nil]
    simp only [List.length_cons]
    nlinarith

theorem staircase_increasing (n : Nat) :
    (staircase n).Pairwise (fun a b => a.indent < b.indent) := by
  rw [staircase, List.pairwise_map]
  exact (List.pairwise_lt_range n).imp (fun h => Int.ofNat_lt.mpr h)

theorem staircase_length (n : Nat) : (staircase n).length = n := by
  rw [staircase, List.length_map, List.length_range]

/-- Counterexample to C16 as stated: no constant bounds the number of lookahead
tests per line; the `2 c + 2` lines with indents `0, 1, 2, ..` need more than
`c (2 c + 2)` tests. -/
theorem comparisons_not_linear :
    ¬ ∃ c : Nat, ∀ L : List line_pair, comparisons L ≤ c * L.length := by
  rintro ⟨c, hc⟩
  have h1 := hc (staircase (2 * c + 2))
  have h2 := comparisons_increasing _ (staircase_increasing (2 * c + 2))
  rw [staircase_length] at h1 h2
  nlinarith

theorem paths_length_sum (ts : List tree) :
    ∀ i j, ((forest_paths i ts).map List.length).sum = ((forest_paths j ts).map List.length).sum := by
  induction ts with
  | nil => intro i j; rfl
  | cons t ts ih =>
    intro i j
    simp only [forest_paths, List.map_append, List.map_map, List.sum_append]
    rw [ih (i + 1) (j + 1)]
    congr 1

/-- The sum of the path lengths of the built forest, one iteration unfolded. -/
theorem path_length_sum_cons (cur : line_pair) (rest : List line_pair) :
    ((preorder_paths (forest_from_line_indents (cur :: rest))).map List.length).sum =
      1 + (((preorder_paths (forest_from_line_indents
              (rest.take (lookahead cur.indent rest)))).map List.length).sum
            + lookahead cur.indent rest)
        + ((preorder_paths (forest_from_line_indents
              (rest.drop (lookahead cur.indent rest)))).map List.length).sum := by
  have hn := lookahead_le cur.indent rest
  have hlen : (forest_paths 0 (forest_from_line_indents
      (rest.take (lookahead cur.indent rest)))).length = lookahead cur.indent rest := by
    rw [paths_length.2, forest_nodes_length]; simp; omega
  have hmap : ∀ (l : List (List Nat)),
      (l.map (List.length ∘ fun p => 0 :: p)).sum = (l.map List.length).sum + l.length := by
    intro l
    induction l with
    | nil => rfl
    | cons a l ih => simp [ih]; omega
  simp only [preorder_paths]
  rw [forest_cons, forest_paths_cons]
  simp only [List.map_cons, List.map_append, List.map_map, List.sum_cons, List.sum_append,
    List.length_singleton]
  rw [hmap, hlen, paths_length_sum _ (0 + 1) 0]
  omega

/-- C16 (amended): every line gives exactly one node (it is the current line of
exactly one iteration), and the number of lookahead tests is at most the sum
over the lines of the depth of the line's node plus one, and at most
`n (n - 1) / 2`; that bound is reached by `n` lines with strictly increasing
indents, so the work is quadratic in the worst case and not linear. -/
theorem comparisons_bounded_by_depths (L : List line_pair) :
    preorder_labels (forest_from_line_indents L) = L.map line_pair.str ∧
    comparisons L ≤ ((preorder_paths (forest_from_line_indents L)).map List.length).sum ∧
    2 * comparisons L + L.length ≤ L.length * L.length ∧
    ∀ n : Nat, 2 * comparisons (staircase n) + n = n * n := by
  refine ⟨preorder_labels_forest L, ?_, ?_, ?_⟩
  · induction L using forest_induction with
    | hnil => simp [comparisons_nil]
    | hcons cur rest ihA ihB =>
      rw [comparisons_cons, path_length_sum_cons]
      have := (lookahead_tests_le cur.indent rest).2
      omega
  · induction L using forest_induction with
    | hnil => simp [comparisons_nil]
    | hcons cur rest ihA ihB =>
      rw [comparisons_cons]
      have h1 := (lookahead_tests_le cur.indent rest).1
      have hn := lookahead_le cur.indent rest
      simp only [List.length_take, List.length_drop, List.length_cons] at ihA ihB ⊢
      rw [Nat.min_eq_left hn] at ihA
      obtain ⟨b, hb⟩ : ∃ b, rest.length = lookahead cur.indent rest + b :=
        ⟨rest.length - lookahead cur.indent rest, by omega⟩
      rw [hb] at ihB h1 ⊢
      simp only [Nat.add_sub_cancel_left] at ihB
      nlinarith
  · intro n
    have := comparisons_increasing _ (staircase_increasing n)
    rwa [staircase_length] at this

/-! ## Indents along siblings and from parent to child -/

/-- The paths are listed in lexicographic order. -/
theorem paths_sorted :
    (∀ t : tree, t.paths.Pairwise (List.Lex (· < ·))) ∧
    (∀ (ts : List tree) (o : Nat), (forest_paths o ts).Pairwise (List.Lex (· < ·))) := by
  apply tree_forest_induction
  · intro v cs ih
    simp only [tree.paths, List.pairwise_cons]
    refine ⟨?_, ih 0⟩
    intro q hq
    obtain ⟨j, r, rfl, _⟩ := forest_paths_head cs 0 q hq
    exact List.Lex.nil
  · intro o; simp [forest_paths]
  · intro t ts iht ihts o
    simp only [forest_paths]
    rw [List.pairwise_append]
    refine ⟨?_, ihts (o + 1), ?_⟩
    · rw [List.pairwise_map]
      exact iht.imp (fun h => List.Lex.cons h)
    · intro a ha b hb
      simp only [List.mem_map] at ha
      obtain ⟨r, _, rfl⟩ := ha
      obtain ⟨j, r', rfl, hj⟩ := forest_paths_head ts (o + 1) b hb
      exact List.Lex.rel (by omega)

theorem lex_append_singleton (p : List Nat) (a b : Nat)
    (h : List.Lex (· < ·) (p ++ [b]) (p ++ [a])) : b < a := by
  induction p with
  | nil =>
    simp only [List.nil_append] at h
    cases h with
    | cons h' => cases h'
    | rel h' => exact h'
  | cons c p ih =>
    simp only [List.cons_append] at h
    cases h with
    | cons h' => exact ih h'
    | rel h' => exact absurd h' (lt_irrefl c)

/-- A sibling with a smaller index comes earlier in pre-order. -/
theorem sibling_order (F : List tree) (i j : Nat) (p : List Nat) (a b : Nat)
    (hi : (preorder_paths F)[i]? = some (p ++ [a]))
    (hj : (preorder_paths F)[j]? = some (p ++ [b])) (hab : a < b) : i < j := by
  by_contra hcon
  have hsorted := paths_sorted.2 F 0
  rw [List.pairwise_iff_getElem] at hsorted
  have hil : i < (preorder_paths F).length := by
    rcases Nat.lt_or_ge i (preorder_paths F).length with h' | h'
    · exact h'
    · rw [List.getElem?_eq_none h'] at hi; cases hi
  have hjl : j < (preorder_paths F).length := by
    rcases Nat.lt_or_ge j (preorder_paths F).length with h' | h'
    · exact h'
    · rw [List.getElem?_eq_none h'] at hj; cases hj
  rw [List.getElem?_eq_getElem hil, Option.some.injEq] at hi
  rw [List.getElem?_eq_getElem hjl, Option.some.injEq] at hj
  rcases Nat.lt_or_ge j i with h | h
  · have := hsorted j i hjl hil h
    simp only [preorder_paths] at hi hj
    rw [hi, hj] at this
    have := lex_append_singleton p a b this
    omega
  · have hij : i = j := by omega
    subst hij
    rw [hi] at hj
    have := List.append_cancel_left hj
    simp at this
    omega

/-- The path of the node of line `i` is the parent path of the node of line `j`
only if line `i` is the nearest earlier line with a smaller indent. -/
theorem parent_path_indent (L : List line_pair) (i j : Nat) (p : List Nat) (c : Nat)
    (li lj : line_pair)
    (hi : (preorder_paths (forest_from_line_indents L))[i]? = some p)
    (hj : (preorder_paths (forest_from_line_indents L))[j]? = some (p ++ [c]))
    (hli : L[i]? = some li) (hlj : L[j]? = some lj) :
    i < j ∧ li.indent < lj.indent ∧
      ∀ k lk, i < k → k < j → L[k]? = some lk → lj.indent ≤ lk.indent := by
  obtain ⟨q, hq, h1, h2⟩ := forest_paths_parent L 0 j lj hlj
  have hqeq : q = p ++ [c] := by
    have : some q = some (p ++ [c]) := by rw [← hq]; exact hj
    exact Option.some.inj this
  have hpne : p ≠ [] := forest_paths_ne_nil _ 0 p (List.getElem?_mem hi)
  have hil : i < (preorder_paths (forest_from_line_indents L)).length := by
    rcases Nat.lt_or_ge i (preorder_paths (forest_from_line_indents L)).length with h' | h'
    · exact h'
    · rw [List.getElem?_eq_none h'] at hi; cases hi
  rcases nearest_smaller L lj.indent j with hnone | ⟨i', li', hi', hli', hlt', hb'⟩
  · obtain ⟨c', hc'⟩ := h1 hnone
    rw [hqeq] at hc'
    have := congrArg List.length hc'
    simp at this
    exact absurd this hpne
  · obtain ⟨_, hpar⟩ := h2 i' li' hi' hli' hlt' hb'
    rw [hqeq, List.dropLast_concat] at hpar
    have hii : i = i' :=
      List.getElem?_inj hil (nodup_paths.2 _ 0) (by
        rw [hi]
        exact hpar.symm)
    subst hii
    rw [hli] at hli'
    cases hli'
    exact ⟨hi', hlt', hb'⟩

/-- C19: in the built forest, of two nodes in the same children sequence (the
top level included) the one further right comes from a line whose indent is
not greater, and the line of a child has a strictly greater indent than the
line of its parent. Nodes are named by their paths and the node of line `i` is
the node at pre-order position `i`. -/
theorem sibling_and_child_indents (L : List line_pair) :
    (∀ (i j : Nat) (p : List Nat) (a b : Nat) (li lj : line_pair),
      (preorder_paths (forest_from_line_indents L))[i]? = some (p ++ [a]) →
      (preorder_paths (forest_from_line_indents L))[j]? = some (p ++ [b]) →
      a < b → L[i]? = some li → L[j]? = some lj → lj.indent ≤ li.indent) ∧
    (∀ (i j : Nat) (p : List Nat) (c : Nat) (li lj : line_pair),
      (preorder_paths (forest_from_line_indents L))[i]? = some p →
      (preorder_paths (forest_from_line_indents L))[j]? = some (p ++ [c]) →
      L[i]? = some li → L[j]? = some lj → li.indent < lj.indent) := by
  constructor
  · intro i j p a b li lj hi hj hab hli hlj
    have hij := sibling_order _ i j p a b hi hj hab
    by_contra hcon
    have hlt : li.indent < lj.indent := by omega
    obtain ⟨q, hq, h1, h2⟩ := forest_paths_parent L 0 j lj hlj
    have hqeq : q = p ++ [b] := by
      have : some q = some (p ++ [b]) := by rw [← hq]; exact hj
      exact Option.some.inj this
    rcases nearest_smaller L lj.indent j with hnone | ⟨i', li', hi', hli', hlt', hb'⟩
    · have := hnone i li hij hli
      omega
    · obtain ⟨_, hpar⟩ := h2 i' li' hi' hli' hlt' hb'
      rw [hqeq, List.dropLast_concat] at hpar
      -- line `i'` is the parent of both; it precedes its child `i`
      have hpi := parent_path_indent L i' i p a li' li hpar hi hli' hli
      rcases Nat.lt_or_ge i' i with h | h
      · have := hb' i li h hij hli
        omega
      · omega
  · intro i j p c li lj hi hj hli hlj
    exact (parent_path_indent L i j p c li lj hi hj hli hlj).2.1

/-! ## The last line of the diagram -/

theorem tree_paths_ne_nil (t : tree) : t.paths ≠ [] := by
  cases t; simp [tree.paths]

theorem forest_paths_eq_nil (ts : List tree) (o : Nat) (h : forest_paths o ts = []) :
    ts = [] := by
  cases ts with
  | nil => rfl
  | cons t ts =>
    simp only [forest_paths, List.append_eq_nil, List.map_eq_nil_iff] at h
    exact absurd h.1 (tree_paths_ne_nil t)

/-- Along the path of the last node in pre-order every node is the final
element of its sequence. -/
theorem last_path_final :
    (∀ (t : tree) (r : List Nat), t.paths.getLast? = some r →
      ∀ (S : List tree) (i : Nat), S[i]? = some t → i + 1 = S.length →
        ∀ m, 1 ≤ m → m ≤ r.length + 1 → is_final S ((i :: r).take m) = true) ∧
    (∀ (ts : List tree) (q : List Nat) (pre : List tree),
      (forest_paths pre.length ts).getLast? = some q →
        ∀ m, 1 ≤ m → m ≤ q.length → is_final (pre ++ ts) (q.take m) = true) := by
  apply tree_forest_induction
  · intro v cs ih r hr S i hS hlen m hm1 hm2
    obtain ⟨m', rfl⟩ : ∃ m', m = m' + 1 := ⟨m - 1, by omega⟩
    cases m' with
    | zero => simp [is_final, hlen]
    | succ m' =>
      simp only [tree.paths] at hr
      cases hX : forest_paths 0 cs with
      | nil =>
        rw [hX] at hr
        simp only [List.getLast?_singleton, Option.some.injEq] at hr
        subst hr
        simp at hm2
      | cons x xs =>
        rw [hX, List.getLast?_cons_cons, ← hX] at hr
        have hne : r.take (m' + 1) ≠ [] := by
          intro hnil
          have := congrArg List.length hnil
          simp only [List.length_take, List.length_nil] at this
          omega
        rw [List.take_succ_cons, is_final_step S i _ _ hS hne]
        have := ih r [] hr (m' + 1) (by omega) (by omega)
        simpa [tree.children] using this
  · intro q pre h
    simp [forest_paths] at h
  · intro t ts iht ihts q pre h m hm1 hm2
    simp only [forest_paths] at h
    cases ts with
    | nil =>
      simp only [forest_paths, List.append_nil, List.getLast?_map] at h
      cases hr : t.paths.getLast? with
      | none => rw [hr] at h; cases h
      | some r =>
        rw [hr] at h
        simp only [Option.map_some', Option.some.injEq] at h
        subst h
        exact iht r hr (pre ++ [t]) pre.length
          (by rw [List.getElem?_append_right (le_refl _)]; simp) (by simp) m hm1
          (by simpa using hm2)
    | cons t' ts' =>
      have hB : forest_paths (pre.length + 1) (t' :: ts') ≠ [] :=
        fun hnil => by cases forest_paths_eq_nil _ _ hnil
      rw [List.getLast?_append_of_ne_nil _ hB] at h
      have := ihts q (pre ++ [t]) (by simpa using h) m hm1 hm2
      simpa using this

/-- The prefix of a node all of whose ancestors are final is made of spaces. -/
theorem ancestor_bars_all_final (F : List tree) (q : List Nat)
    (h : ∀ m, 1 ≤ m → m ≤ q.length → is_final F (q.take m) = true) :
    ancestor_bars F q = List.replicate (3 * (q.length - 1)) ' ' := by
  have hgen : ∀ n, n ≤ q.length - 1 →
      ((List.range n).map (fun j => if is_final F (q.take (j + 1)) then [' ', ' ', ' ']
        else ['│', ' ', ' '])).flatten = List.replicate (3 * n) ' ' := by
    intro n
    induction n with
    | zero => intro _; rfl
    | succ n ih =>
      intro hn
      rw [List.range_succ, List.map_append, List.flatten_append, ih (by omega)]
      simp only [List.map_cons, List.map_nil, List.flatten_cons, List.flatten_nil,
        List.append_nil]
      rw [h (n + 1) (by omega) (by omega), if_pos rfl,
        show 3 * (n + 1) = 3 * n + 3 by omega, List.replicate_add]
      rfl
  exact hgen _ (le_refl _)

/-- C20: for a tree with at least one non-root node the last line printed is
`3 * d` spaces, then `└─ ` and the label of the last node in pre-order, `d`
being the depth of that node (its path has `d + 1` indices): no bar and no
`├` on the last line. -/
theorem last_line_is_spaces_and_corner (root : tree) (hne : root.children ≠ []) :
    ∃ (q : List Nat) (t : tree),
      (preorder_paths root.children).getLast? = some q ∧
      (forest_nodes root.children).getLast? = some t ∧
      node_at root.children q = some t ∧
      (draw_tree root).getLast? =
        some (List.replicate (3 * (q.length - 1)) ' ' ++ ['└', '─', ' '] ++ t.value) := by
  have hpne : preorder_paths root.children ≠ [] :=
    fun h => hne (forest_paths_eq_nil _ 0 h)
  obtain ⟨q, hq⟩ : ∃ q, (preorder_paths root.children).getLast? = some q := by
    cases h : (preorder_paths root.children).getLast? with
    | none => exact absurd (List.getLast?_eq_none_iff.mp h) hpne
    | some q => exact ⟨q, rfl⟩
  have hqidx := hq
  rw [List.getLast?_eq_getElem?] at hqidx
  have hat := preorder_paths_node_at _ _ q hqidx
  have hnodes : (forest_nodes root.children).getLast? =
      (forest_nodes root.children)[(preorder_paths root.children).length - 1]? := by
    rw [List.getLast?_eq_getElem?, preorder_paths_length]
  have hk : (preorder_paths root.children).length - 1 < (forest_nodes root.children).length := by
    rw [← preorder_paths_length]
    have := List.length_pos.mpr hpne
    omega
  rw [List.getElem?_eq_getElem hk] at hat hnodes
  refine ⟨q, _, hq, hnodes, hat, ?_⟩
  have hfinal := last_path_final.2 root.children q [] (by simpa [preorder_paths] using hq)
  simp only [List.nil_append] at hfinal
  have hqne : q ≠ [] := forest_paths_ne_nil _ 0 q (List.mem_of_mem_getLast? hq)
  have hqfinal : is_final root.children q = true := by
    have := hfinal q.length (List.length_pos.mpr hqne) (le_refl _)
    rwa [List.take_length] at this
  have hdraw : (draw_tree root).getLast? = some (diagram_line root.children q) := by
    simp only [draw_tree, draw_eq]
    rw [List.getLast?_cons, List.getLast?_map, hq]
    simp
  rw [hdraw]
  simp only [diagram_line, ancestor_bars_all_final _ q hfinal, hqfinal, if_true, label_at, hat]
  simp

/-- Witness for C20: the tree of `A`, `B`, `C`, `D` at indents 0, 1, 0, 1. -/
theorem last_line_is_spaces_and_corner_witness :
    (tree.node ['.'] (forest_from_line_indents
      [⟨0, ['A']⟩, ⟨1, ['B']⟩, ⟨0, ['C']⟩, ⟨1, ['D']⟩])).children ≠ [] ∧
    ∃ (q : List Nat) (t : tree),
      (preorder_paths (tree.node ['.'] (forest_from_line_indents
        [⟨0, ['A']⟩, ⟨1, ['B']⟩, ⟨0, ['C']⟩, ⟨1, ['D']⟩])).children).getLast? = some q ∧
      (forest_nodes (tree.node ['.'] (forest_from_line_indents
        [⟨0, ['A']⟩, ⟨1, ['B']⟩, ⟨0, ['C']⟩, ⟨1, ['D']⟩])).children).getLast? = some t ∧
      node_at (tree.node ['.'] (forest_from_line_indents
        [⟨0, ['A']⟩, ⟨1, ['B']⟩, ⟨0, ['C']⟩, ⟨1, ['D']⟩])).children q = some t ∧
      (draw_tree (tree.node ['.'] (forest_from_line_indents
        [⟨0, ['A']⟩, ⟨1, ['B']⟩, ⟨0, ['C']⟩, ⟨1, ['D']⟩]))).getLast? =
        some (List.replicate (3 * (q.length - 1)) ' ' ++ ['└', '─', ' '] ++ t.value) :=
  ⟨by simp [tree.children, forest_cons],
    last_line_is_spaces_and_corner _ (by simp [tree.children, forest_cons])⟩

end Treeviz
